import Mathlib

/-!
# Verification of the quadruple-IR optimizer core

Shallow embedding of the intermediate representation and optimizer passes of
the Compiler repository, translated from:

* `src/src/code_generator/CodeGenerator.h` (the `Optimizer` implementation
  living after the `CodeGenerator` class — called "snapshot A" below),
* `src/src/semantic_analyzer/SymbolTable.cpp`,
* `src/Compiler-main-2/src/optimizer/Optimizer.cpp` ("snapshot B"),
* the `Quadruple.h` headers of both snapshots.

Modelling conventions:

* C++ `double` constant values are modelled by exact rationals (`Val`);
  the only operations performed are `+ - * /` and comparison with `0`.
* `std::to_string(value)` used for debug names is modelled by `toString`.
* `std::map` / `std::unordered_map` are modelled by functions into `Option`
  or by association lists; `std::set<std::string>` by `Finset String`.
* A value-initialized `Operand{}` (C++ `{}`) zeroes the variant tag, which is
  `IDENTIFIER` (the first enumerator), index `0` and an empty name; this is
  `Operand.empty` below.
* The two snapshots share the quadruple layout but have slightly different
  opcode enumerations (snapshot A: `JMP`, `JPF`, `RETURN`, `LABEL`, `NONE`;
  snapshot B: `JUMP`, `JUMP_IF_FALSE`, `RET`).  `OpCode` below is the union
  of the two enumerations; every embedded function mentions exactly the
  constructors its C++ original mentions.
-/

set_option autoImplicit false

/-- Union of the opcode enumerations of the two `Quadruple.h` snapshots. -/
inductive OpCode where
  | ADD | SUB | MUL | DIV
  | ASSIGN
  | EQ | NE | LT | LE | GT | GE
  | JMP | JPF
  | JUMP | JUMP_IF_FALSE
  | PARAM | CALL | RET | RETURN
  | NO_OP | PRINT | NONE | LABEL
  deriving DecidableEq, Repr

/-- `Operand::Type` from `Quadruple.h`. -/
inductive OperandType where
  | IDENTIFIER | CONSTANT | TEMPORARY | LABEL | NONE
  deriving DecidableEq, Repr

/-- `struct Operand { Type type; int index; std::string name; }`. -/
structure Operand where
  type : OperandType
  index : Int
  name : String
  deriving DecidableEq, Repr

/-- A value-initialized `Operand{}`: tag 0 = `IDENTIFIER`, index 0, empty name. -/
def Operand.empty : Operand := ⟨OperandType.IDENTIFIER, 0, ""⟩

/-- `struct Quadruple { OpCode op; Operand arg1, arg2, result; }`. -/
structure Quadruple where
  op : OpCode
  arg1 : Operand
  arg2 : Operand
  result : Operand
  deriving DecidableEq, Repr

/-- Is the operand of a name-carrying category (`IDENTIFIER` or `TEMPORARY`)?
This test appears verbatim throughout the optimizer. -/
def Operand.isVar (o : Operand) : Bool :=
  o.type = OperandType.IDENTIFIER || o.type = OperandType.TEMPORARY

/-! ### Constant values

The C++ constant pool holds `double`s; the only operations ever performed on
them are `+ - * /` and comparison (equality, and the `v == 0` test guarding
division).  They are modelled by exact rationals, implemented here as a
normalized numerator/denominator pair with structurally-computing operations
(so that every theorem below can be checked by evaluation inside the
kernel). -/

/-- An exact rational: normalized `num / den` with `den > 0`. -/
structure Val where
  num : Int
  den : Int
  deriving DecidableEq, Repr

/-- Normalizing constructor: fix the sign of the denominator and divide both
components by their gcd (`Val.mk' n 0` is never produced by the embedded
code; it is mapped to `0`). -/
def Val.mk' (n d : Int) : Val :=
  let s : Int := if d < 0 then -1 else 1
  let n1 := s * n
  let d1 := s * d
  let g : Int := Int.ofNat (n1.natAbs.gcd d1.natAbs)
  if g = 0 then ⟨0, 1⟩ else ⟨n1 / g, d1 / g⟩

instance (n : ℕ) : OfNat Val n := ⟨⟨(n : Int), 1⟩⟩

instance : Add Val := ⟨fun a b => Val.mk' (a.num * b.den + b.num * a.den) (a.den * b.den)⟩

instance : Sub Val := ⟨fun a b => Val.mk' (a.num * b.den - b.num * a.den) (a.den * b.den)⟩

instance : Mul Val := ⟨fun a b => Val.mk' (a.num * b.num) (a.den * b.den)⟩

instance : Div Val := ⟨fun a b => Val.mk' (a.num * b.den) (a.den * b.num)⟩

/-- Debug-name rendering of a folded constant, modelling `std::to_string`. -/
def constName (v : Val) : String :=
  if v.den = 1 then toString v.num else toString v.num ++ "/" ++ toString v.den

/-- `SymbolTable::lookup_or_add_constant` (SymbolTable.cpp:91-100): return the
index of `v` in the pool if present, otherwise append it.  The C++ keeps a
`map<double,int>` mirror of the vector; we model both by the vector itself. -/
def lookupOrAddConstant (pool : List Val) (v : Val) : ℕ × List Val :=
  match pool.findIdx? (fun x => x = v) with
  | some i => (i, pool)
  | none => (pool.length, pool ++ [v])

/-- Constant-table read `symbol_table.get_constant_table()[i]`.  The C++
performs an unchecked vector access; we totalize out-of-range reads to `0`
(the passes proved about either guard the index or are only ever handed
pool-backed indices). -/
def poolRead (pool : List Val) (i : Int) : Val := pool.getD i.toNat 0

/-! ## Symbol table scopes (SymbolTable.cpp, first snapshot)

Only the fields that `add_symbol` reads and writes are modelled: the flat
`symbol_entries` vector and the stack of per-scope name→index maps.  A
`SymbolEntry` carries further payload (category, type, address) that
`add_symbol` copies around untouched; the `name` field is the only one it
inspects, so the payload is compressed into one opaque field. -/

structure SymbolEntry where
  name : String
  payload : ℕ
  deriving DecidableEq, Repr

structure SymbolTable where
  symbol_entries : List SymbolEntry
  /-- `scope_stack`: innermost scope last, mirroring `std::vector::back`.
  Each scope is a name→index map, modelled as an association list. -/
  scope_stack : List (List (String × ℕ))
  deriving DecidableEq, Repr

/-- The current (innermost, top-of-stack) scope. -/
def SymbolTable.topScope (st : SymbolTable) : List (String × ℕ) :=
  st.scope_stack.getLast?.getD []

/-- `SymbolTable::add_symbol` (SymbolTable.cpp:50-64). -/
def SymbolTable.add_symbol (st : SymbolTable) (entry : SymbolEntry) :
    Bool × SymbolTable :=
  match st.scope_stack.getLast? with
  | none => (false, st)
  | some current_scope =>
    if (current_scope.lookup entry.name).isSome then
      (false, st)
    else
      let index := st.symbol_entries.length
      (true,
        { symbol_entries := st.symbol_entries ++ [entry]
          scope_stack :=
            st.scope_stack.dropLast ++ [(entry.name, index) :: current_scope] })

/-! ## Shared optimizer passes

`constant_folding`, `copy_propagation` and `eliminate_common_subexpressions`
are textually identical in the two snapshots (CodeGenerator.h:411-521 and
Optimizer.cpp:208-305, CodeGenerator.h:447-482 and Optimizer.cpp:237-269);
they are embedded once. -/

instance : Inhabited Quadruple :=
  ⟨⟨OpCode.NO_OP, Operand.empty, Operand.empty, Operand.empty⟩⟩

/-- The four foldable arithmetic opcodes (shared by both enumerations). -/
def isArith : OpCode → Bool
  | OpCode.ADD | OpCode.SUB | OpCode.MUL | OpCode.DIV => true
  | _ => false

/-- The arithmetic of the `switch` in `constant_folding`; `none` models the
`continue` on division by zero (and the unreachable `default`). -/
def foldValue (op : OpCode) (v1 v2 : Val) : Option Val :=
  match op with
  | OpCode.ADD => some (v1 + v2)
  | OpCode.SUB => some (v1 - v2)
  | OpCode.MUL => some (v1 * v2)
  | OpCode.DIV => if v2 = 0 then none else some (v1 / v2)
  | _ => none

/-- `Optimizer::constant_folding` (CodeGenerator.h:411-445, Optimizer.cpp:208-235):
fold `ADD/SUB/MUL/DIV` with two `CONSTANT` operands into `ASSIGN` of a pooled
constant, skipping out-of-range pool indices and division by zero. -/
def constant_folding (pool : List Val) : List Quadruple → List Quadruple × List Val × Bool
  | [] => ([], pool, false)
  | q :: rest =>
    if isArith q.op ∧ q.arg1.type = OperandType.CONSTANT ∧
        q.arg2.type = OperandType.CONSTANT then
      if q.arg1.index < 0 ∨ (pool.length : Int) ≤ q.arg1.index ∨
          q.arg2.index < 0 ∨ (pool.length : Int) ≤ q.arg2.index then
        let (r, p, c) := constant_folding pool rest
        (q :: r, p, c)
      else
        let v1 := poolRead pool q.arg1.index
        let v2 := poolRead pool q.arg2.index
        match foldValue q.op v1 v2 with
        | none =>
          let (r, p, c) := constant_folding pool rest
          (q :: r, p, c)
        | some v =>
          let (const_index, pool1) := lookupOrAddConstant pool v
          let q1 : Quadruple :=
            { q with op := OpCode.ASSIGN
                     arg1 := ⟨OperandType.CONSTANT, const_index, constName v⟩
                     arg2 := Operand.empty }
          let (r, p, _) := constant_folding pool1 rest
          (q1 :: r, p, true)
    else
      let (r, p, c) := constant_folding pool rest
      (q :: r, p, c)

/-- Substitute one operand slot through the copy map
(the two identical `if` blocks at the top of `copy_propagation`). -/
def cpSubstArg (m : String → Option String) (o : Operand) : Operand × Bool :=
  if o.isVar then
    match m o.name with
    | some v => ({ o with name := v }, true)
    | none => (o, false)
  else (o, false)

/-- Invalidation on a write to `r`: drop the entry for `r` itself and every
entry whose mapped-to value is `r` (the `erase` loop in `copy_propagation`). -/
def cpKill (m : String → Option String) (r : String) : String → Option String :=
  fun k =>
    if k = r then none
    else
      match m k with
      | some v => if v = r then none else some v
      | none => none

/-- Copy-map evolution across one instruction of `copy_propagation`: the
C++ substitutes the argument slots in place, then — when the instruction
writes an `IDENTIFIER`/`TEMPORARY` — invalidates the written name's own
entry and every entry mapping to it, and only then records the new copy
when the (already substituted) instruction is `ASSIGN x := y` with `x ≠ y`. -/
def cpStepMap (m : String → Option String) (q : Quadruple) :
    String → Option String :=
  let a1 := (cpSubstArg m q.arg1).1
  let m1 := if q.result.isVar then cpKill m q.result.name else m
  if q.op = OpCode.ASSIGN ∧ a1.isVar ∧ q.result.name ≠ a1.name then
    fun k => if k = q.result.name then some a1.name else m1 k
  else m1

/-- `Optimizer::copy_propagation` (CodeGenerator.h:484-521, Optimizer.cpp:271-305). -/
def cpGo (m : String → Option String) : List Quadruple → List Quadruple × Bool
  | [] => ([], false)
  | q :: rest =>
    let (a1, c1) := cpSubstArg m q.arg1
    let (a2, c2) := cpSubstArg m q.arg2
    let q1 := { q with arg1 := a1, arg2 := a2 }
    let (r, c) := cpGo (cpStepMap m q) rest
    (q1 :: r, c1 || c2 || c)

/-- The copy map held by the scan after its first `t` instructions. -/
def cpMapAfter (qs : List Quadruple) (t : ℕ) : String → Option String :=
  (qs.take t).foldl cpStepMap (fun _ => none)

/-- Whole-pass entry point of `copy_propagation`, starting from an empty map. -/
def copy_propagation (qs : List Quadruple) : List Quadruple × Bool :=
  cpGo (fun _ => none) qs

/-- The file-scope `struct Expression` used by common-subexpression
elimination (CodeGenerator.h:55-63, Optimizer.cpp:9-17). -/
structure Expression where
  op : OpCode
  arg1_name : String
  arg2_name : String
  deriving DecidableEq, Repr

/-- Lexicographic character-list comparison, modelling the C++
`std::string operator>` (first strictly greater character decides; a proper
prefix is smaller). -/
def charsGt : List Char → List Char → Bool
  | _ :: _, [] => true
  | [], _ => false
  | a :: as, b :: bs =>
    if b.toNat < a.toNat then true
    else if a.toNat < b.toNat then false
    else charsGt as bs

/-- `s > t` on strings, lexicographically by character codes. -/
def stringGt (s t : String) : Bool := charsGt s.data t.data

/-- Build the commutativity-normalized expression key for an instruction:
for `ADD`/`MUL` the operand names are sorted (`std::swap` when
`arg1.name > arg2.name`). -/
def normalizeExpr (q : Quadruple) : Expression :=
  if (q.op = OpCode.ADD ∨ q.op = OpCode.MUL) ∧ stringGt q.arg1.name q.arg2.name then
    ⟨q.op, q.arg2.name, q.arg1.name⟩
  else
    ⟨q.op, q.arg1.name, q.arg2.name⟩

/-- The two hash maps of `eliminate_common_subexpressions`. -/
structure CseState where
  available_exprs : Expression → Option String
  var_to_exprs : String → List Expression

def CseState.init : CseState := ⟨fun _ => none, fun _ => []⟩

/-- The invalidation block at the top of the CSE loop: on a write to a name,
erase every available expression registered as depending on that name. -/
def cseInvalidate (s : CseState) (q : Quadruple) : CseState :=
  if q.result.isVar then
    let dead := s.var_to_exprs q.result.name
    { available_exprs := fun e => if e ∈ dead then none else s.available_exprs e
      var_to_exprs := fun x => if x = q.result.name then [] else s.var_to_exprs x }
  else s

/-- The recording branch of the CSE loop: make `e` available as held by the
instruction's result, and register `e` under both operand names. -/
def cseRecord (s : CseState) (q : Quadruple) (e : Expression) : CseState :=
  let av := fun x => if x = e then some q.result.name else s.available_exprs x
  let vt1 := fun x =>
    if x = q.arg1.name then s.var_to_exprs x ++ [e] else s.var_to_exprs x
  let vt2 := fun x => if x = q.arg2.name then vt1 x ++ [e] else vt1 x
  ⟨av, vt2⟩

/-- `Optimizer::eliminate_common_subexpressions`
(CodeGenerator.h:447-482, Optimizer.cpp:237-269). -/
def cseGo (s : CseState) : List Quadruple → List Quadruple × Bool
  | [] => ([], false)
  | q :: rest =>
    let s1 := cseInvalidate s q
    if isArith q.op then
      let e := normalizeExpr q
      match s1.available_exprs e with
      | some holder =>
        let q1 : Quadruple :=
          { q with op := OpCode.ASSIGN
                   arg1 := ⟨OperandType.TEMPORARY, -1, holder⟩
                   arg2 := Operand.empty }
        let (r, _) := cseGo s1 rest
        (q1 :: r, true)
      | none =>
        let (r, c) := cseGo (cseRecord s1 q e) rest
        (q :: r, c)
    else
      let (r, c) := cseGo s1 rest
      (q :: r, c)

/-- Whole-pass entry point of `eliminate_common_subexpressions`. -/
def eliminate_common_subexpressions (qs : List Quadruple) : List Quadruple × Bool :=
  cseGo CseState.init qs

/-! ## Snapshot B: Compiler-main-2/src/optimizer/Optimizer.cpp

The loop passes, the whole-sequence dead-code elimination and the fixed-point
driver.  Opcodes here are `JUMP`/`JUMP_IF_FALSE`/`RET` etc. -/

namespace SnapB

/-- Loop detection shared by LICM and strength reduction
(Optimizer.cpp:56-62 and 123-129): every unconditional `JUMP` whose
`LABEL`-typed target ordinal is smaller than its own ordinal delimits the
loop range `[target, jump_index]`. -/
def findLoops (qs : List Quadruple) : List (ℕ × ℕ) :=
  (List.range qs.length).filterMap (fun i =>
    let q := qs.getD i default
    if q.op = OpCode.JUMP ∧ q.result.type = OperandType.LABEL ∧
        0 ≤ q.result.index ∧ q.result.index < (i : Int) then
      some (q.result.index.toNat, i)
    else none)

/-- The contiguous segment `[ls, le]` (both inclusive) of the sequence. -/
def segment (qs : List Quadruple) (ls le : ℕ) : List Quadruple :=
  (qs.drop ls).take (le + 1 - ls)

/-- Names assigned anywhere inside the loop range (Optimizer.cpp:69-75). -/
def definedInLoop (seg : List Quadruple) : Finset String :=
  seg.foldl
    (fun s q => if q.result.isVar then insert q.result.name s else s) ∅

/-- The invariance test of Optimizer.cpp:83-90: an arithmetic instruction
whose operands are each either `CONSTANT` or a name not defined in the loop. -/
def isInvariantIn (dset : Finset String) (q : Quadruple) : Bool :=
  isArith q.op &&
    (decide (q.arg1.type = OperandType.CONSTANT) || !(decide (q.arg1.name ∈ dset))) &&
    (decide (q.arg2.type = OperandType.CONSTANT) || !(decide (q.arg2.name ∈ dset)))

/-- Per-loop body of `loop_invariant_code_motion`: remove the invariant
instructions from the range and re-insert them, in order, at the range start;
the first loop yielding a non-empty invariant set is rewritten and the pass
returns immediately (Optimizer.cpp:65-109). -/
def licmRewrite (qs : List Quadruple) : List (ℕ × ℕ) → List Quadruple × Bool
  | [] => (qs, false)
  | (ls, le) :: more =>
    let seg := segment qs ls le
    let dset := definedInLoop seg
    let inv := seg.filter (isInvariantIn dset)
    if inv.isEmpty then licmRewrite qs more
    else
      (qs.take ls ++ inv ++ seg.filter (fun q => !(isInvariantIn dset q)) ++
        qs.drop (le + 1), true)

/-- `Optimizer::loop_invariant_code_motion` (Optimizer.cpp:54-112). -/
def loop_invariant_code_motion (qs : List Quadruple) : List Quadruple × Bool :=
  licmRewrite qs (findLoops qs)

/-- Search of the basic induction variable `i := i + C`
(Optimizer.cpp:139-146): the first `ADD` whose result name equals its first
operand name and whose second operand is `CONSTANT`. -/
def findInduction : List Quadruple → Option (String × Operand)
  | [] => none
  | q :: rest =>
    if q.op = OpCode.ADD ∧ q.result.name = q.arg1.name ∧
        q.arg2.type = OperandType.CONSTANT then
      some (q.result.name, q.arg2)
    else findInduction rest

/-- Search of a reducible multiply `t := i * C` or `t := C * i` in the loop
range (Optimizer.cpp:151-165), returning its absolute index and the constant
operand. -/
def findTargetMul (qs : List Quadruple) (ivar : String) (ls le : ℕ) :
    Option (ℕ × Operand) :=
  ((List.range (le + 1 - ls)).map (fun k => ls + k)).findSome? (fun i =>
    let q := qs.getD i default
    if q.op = OpCode.MUL then
      if q.arg1.name = ivar ∧ q.arg2.type = OperandType.CONSTANT then
        some (i, q.arg2)
      else if q.arg2.name = ivar ∧ q.arg1.type = OperandType.CONSTANT then
        some (i, q.arg1)
      else none
    else none)

/-- Insertion `quads.insert(quads.begin() + i, q)`. -/
def insertAt (qs : List Quadruple) (i : ℕ) (q : Quadruple) : List Quadruple :=
  qs.take i ++ [q] ++ qs.drop i

/-- The rewrite step of strength reduction on one found multiply
(Optimizer.cpp:167-197).  The C++ mutates the multiply through a reference
that the preceding `insert` invalidates; we model the documented intent
(spec § 4.6): the in-loop multiply — shifted to `i + 1` by the insertion at
`loop_start ≤ i` — becomes `t := s`.  Returns the new quads, pool and
temporary counter. -/
def srRewrite (qs : List Quadruple) (pool : List Val) (counter : ℕ)
    (ls le i : ℕ) (ivar : String) (constOp stepOp : Operand) :
    List Quadruple × List Val × ℕ :=
  let q := qs.getD i default
  let s_op : Operand := ⟨OperandType.TEMPORARY, -1, "s" ++ toString counter⟩
  let init_quad : Quadruple := ⟨OpCode.MUL, q.arg1, q.arg2, s_op⟩
  let qs1 := insertAt qs ls init_quad
  let qs2 := qs1.set (i + 1)
    { q with op := OpCode.ASSIGN, arg1 := s_op, arg2 := Operand.empty }
  let cv := poolRead pool constOp.index
  let sv := poolRead pool stepOp.index
  let (ci, pool1) := lookupOrAddConstant pool (cv * sv)
  let new_const_op : Operand := ⟨OperandType.CONSTANT, ci, constName (cv * sv)⟩
  let update_quad : Quadruple := ⟨OpCode.ADD, s_op, new_const_op, s_op⟩
  let induction_update_pos :=
    (((List.range (le + 2 - ls)).map (fun k => ls + k)).find? (fun j =>
        (qs2.getD j default).result.name = ivar)).getD 0
  (insertAt qs2 (induction_update_pos + 1) update_quad, pool1, counter + 1)

/-- `Optimizer::strength_reduction` (Optimizer.cpp:118-202).  The static
`temp_counter_for_strength_reduction` is threaded explicitly.  Returns
`(quads, pool, counter, changed)`. -/
def strengthReductionLoops (qs : List Quadruple) (pool : List Val) (counter : ℕ) :
    List (ℕ × ℕ) → List Quadruple × List Val × ℕ × Bool
  | [] => (qs, pool, counter, false)
  | (ls, le) :: more =>
    match findInduction (segment qs ls le) with
    | none => strengthReductionLoops qs pool counter more
    | some (ivar, stepOp) =>
      match findTargetMul qs ivar ls le with
      | none => strengthReductionLoops qs pool counter more
      | some (i, constOp) =>
        let (qs1, pool1, counter1) :=
          srRewrite qs pool counter ls le i ivar constOp stepOp
        (qs1, pool1, counter1, true)

def strength_reduction (qs : List Quadruple) (pool : List Val) (counter : ℕ) :
    List Quadruple × List Val × ℕ × Bool :=
  strengthReductionLoops qs pool counter (findLoops qs)

/-- The side-effect test of snapshot B's dead-code elimination
(Optimizer.cpp:318): note that `RET` is not in the list. -/
def hasSideEffect (op : OpCode) : Bool :=
  op = OpCode.JUMP || op = OpCode.JUMP_IF_FALSE || op = OpCode.CALL ||
    op = OpCode.PRINT

/-- Live-set update of a kept instruction:
`live = (live - def) ∪ use` (Optimizer.cpp:327-335). -/
def liveUpdate (live : Finset String) (q : Quadruple) : Finset String :=
  let l1 := if q.result.isVar then live.erase q.result.name else live
  let l2 := if q.arg1.isVar then insert q.arg1.name l1 else l1
  if q.arg2.isVar then insert q.arg2.name l2 else l2

/-- Backward scan of snapshot B's `dead_code_elimination`
(Optimizer.cpp:315-337), processing the list from its tail. -/
def dceGo : List Quadruple → Finset String → List Quadruple × Finset String
  | [], live => ([], live)
  | q :: rest, live =>
    let (r, live1) := dceGo rest live
    let is_live :=
      hasSideEffect q.op || (q.result.isVar && decide (q.result.name ∈ live1))
    if is_live then (q :: r, liveUpdate live1 q) else (r, live1)

/-- `Optimizer::dead_code_elimination` (Optimizer.cpp:307-344), seeded with
every user symbol name. -/
def dead_code_elimination (symNames : List String) (qs : List Quadruple) :
    List Quadruple × Bool :=
  let seed := symNames.foldl (fun s n => insert n s) (∅ : Finset String)
  let (r, _) := dceGo qs seed
  if r.length = qs.length then (qs, false) else (r, true)

/-- The full optimizer state threaded through the driver. -/
structure OptState where
  quads : List Quadruple
  pool : List Val
  syms : List String
  counter : ℕ
  deriving DecidableEq, Repr

/-- One iteration of the driver's `while (changed)` body (Optimizer.cpp:31-40):
folding, copy propagation, CSE, LICM, strength reduction, DCE, in that order;
`changed` is the disjunction of the six per-pass reports. -/
def driverIteration (st : OptState) : OptState × Bool :=
  let (q1, p1, c1) := constant_folding st.pool st.quads
  let (q2, c2) := copy_propagation q1
  let (q3, c3) := eliminate_common_subexpressions q2
  let (q4, c4) := loop_invariant_code_motion q3
  let (q5, p2, k5, c5) := strength_reduction q4 p1 st.counter
  let (q6, c6) := dead_code_elimination st.syms q5
  (⟨q6, p2, st.syms, k5⟩, c1 || c2 || c3 || c4 || c5 || c6)

/-- `Optimizer::optimize` (Optimizer.cpp:27-43) with explicit fuel: iterate
the driver body while some pass reports a change.  The C++ has no fuel — it
loops until `changed` is false — and performs no jump/label finalization
after the loop. -/
def optimizeFuel : ℕ → OptState → OptState
  | 0, st => st
  | n + 1, st =>
    let (st1, c) := driverIteration st
    if c then optimizeFuel n st1 else st1

/-- Does every one of the first `n` driver iterations report a change?
(I.e. after `n` iterations the driver is still in its RUNNING state.) -/
def allChanged : ℕ → OptState → Bool
  | 0, _ => true
  | n + 1, st =>
    let (st1, c) := driverIteration st
    c && allChanged n st1

end SnapB

/-! ## Snapshot A: the Optimizer in src/src/code_generator/CodeGenerator.h

Opcodes here are `JMP`/`JPF`/`RETURN`/`LABEL` etc. -/

namespace SnapA

/-- `Optimizer::is_jump_op` (CodeGenerator.h:402-404). -/
def is_jump_op (op : OpCode) : Bool := op = OpCode.JMP || op = OpCode.JPF

/-- `Optimizer::is_label_op` (CodeGenerator.h:406-408). -/
def is_label_op (op : OpCode) : Bool := op = OpCode.LABEL

/-- `struct BasicBlock` (optimizer.h).  The C++ fields `def` and `use` are
Lean keywords and are rendered `defS` and `useS`. -/
structure BasicBlock where
  quads : List Quadruple
  predecessors : Finset ℕ
  successors : Finset ℕ
  defS : Finset String
  useS : Finset String
  live_in : Finset String
  live_out : Finset String

instance : Inhabited BasicBlock := ⟨⟨[], ∅, ∅, ∅, ∅, ∅, ∅⟩⟩

/-! ### Step 0 of `optimize` (CodeGenerator.h:90-134): lower ordinal-based
jumps to label-based jumps. -/

/-- Line numbers referenced by some jump (CodeGenerator.h:97-102). -/
def jumpTargetLines (qs : List Quadruple) : Finset Int :=
  qs.foldl (fun s q => if is_jump_op q.op then insert q.result.index s else s) ∅

/-- Label-insertion sweep (CodeGenerator.h:105-121): in front of every line
that is a jump target, insert a `LABEL` pseudo-instruction with a densely
allocated id, recording the line → label-id map.  The C++ `label_quad` is
default-initialized; its unread `arg1`/`arg2` are modelled as empty. -/
def labelInsertGo (targets : Finset Int) :
    List (ℕ × Quadruple) → List (Int × ℕ) → ℕ → List Quadruple × List (Int × ℕ)
  | [], m, _ => ([], m)
  | (i, q) :: rest, m, next =>
    if ((i : Int) ∈ targets) ∧ (m.lookup (i : Int)).isNone then
      let lq : Quadruple :=
        ⟨OpCode.LABEL, Operand.empty, Operand.empty,
          ⟨OperandType.LABEL, next, "L" ++ toString next⟩⟩
      let (r, m1) := labelInsertGo targets rest (((i : Int), next) :: m) (next + 1)
      (lq :: q :: r, m1)
    else
      let (r, m1) := labelInsertGo targets rest m next
      (q :: r, m1)

/-- Steps 1-3 of the lowering (CodeGenerator.h:96-134): insert labels, then
retarget every jump from a raw line number to the label id of that line.
A jump whose target line received no label (e.g. a jump one past the end of
the program) is left untouched. -/
def labelQuads (qs : List Quadruple) : List Quadruple :=
  let targets := jumpTargetLines qs
  let (lq, m) := labelInsertGo targets qs.enum [] 0
  lq.map (fun q =>
    if is_jump_op q.op then
      match m.lookup q.result.index with
      | some lid =>
        { q with result := ⟨OperandType.LABEL, lid, "L" ++ toString lid⟩ }
      | none => q
    else q)

/-! ### `Optimizer::build_basic_blocks` (CodeGenerator.h:157-237) -/

/-- First step (CodeGenerator.h:161-179): mark block entries — instruction 0,
every instruction after a jump, every `LABEL` instruction. -/
def blockEntries (qs : List Quadruple) : List Bool :=
  let base := (List.replicate qs.length false).set 0 true
  (List.range qs.length).foldl
    (fun es i =>
      let q := qs.getD i default
      let es1 :=
        if is_jump_op q.op ∧ i + 1 < qs.length then es.set (i + 1) true else es
      if is_label_op q.op then es1.set i true else es1)
    base

/-- Second step (CodeGenerator.h:181-201): partition the sequence into
blocks, closing the current block before every marked entry and after every
jump. -/
def buildBlockQuads (qs : List Quadruple) : List (List Quadruple) :=
  let entries := blockEntries qs
  let (blocks, current) :=
    (List.range qs.length).foldl
      (fun (acc : List (List Quadruple) × List Quadruple) i =>
        let q := qs.getD i default
        let (bs, cur) :=
          if entries.getD i false ∧ acc.2 ≠ [] then (acc.1 ++ [acc.2], [])
          else acc
        let cur1 := cur ++ [q]
        if is_jump_op q.op then (bs ++ [cur1], []) else (bs, cur1))
      ([], [])
  if current ≠ [] then blocks ++ [current] else blocks

/-- The `label_to_block` map declared at CodeGenerator.h:159.  The C++
declares it and reads it during successor wiring but never inserts into it,
so it is constantly empty. -/
def label_to_block : List (Int × ℕ) := []

/-- Record the CFG edge `src → dst` (successor plus transposed predecessor). -/
def addEdge (bs : List BasicBlock) (src dst : ℕ) : List BasicBlock :=
  let bs1 := bs.set src
    { bs.getD src default with
        successors := insert dst (bs.getD src default).successors }
  bs1.set dst
    { bs1.getD dst default with
        predecessors := insert src (bs1.getD dst default).predecessors }

/-- Third step (CodeGenerator.h:203-234): successor/predecessor wiring.
Jump targets are resolved through `label_to_block` — which is empty. -/
def wireBlocks (bs : List BasicBlock) : List BasicBlock :=
  (List.range bs.length).foldl
    (fun bs i =>
      let b := bs.getD i default
      let last := b.quads.getLast?.getD default
      if is_jump_op last.op then
        if last.op = OpCode.JMP then
          match label_to_block.lookup last.result.index with
          | some t => addEdge bs i t
          | none => bs
        else if last.op = OpCode.JPF then
          let bs1 :=
            match label_to_block.lookup last.result.index with
            | some t => addEdge bs i t
            | none => bs
          if i + 1 < bs.length then addEdge bs1 i (i + 1) else bs1
        else bs
      else if i + 1 < bs.length then addEdge bs i (i + 1) else bs)
    bs

/-- `Optimizer::build_basic_blocks` (CodeGenerator.h:157-237). -/
def build_basic_blocks (qs : List Quadruple) : List BasicBlock :=
  wireBlocks ((buildBlockQuads qs).map (fun bq => { (default : BasicBlock) with quads := bq }))

/-! ### `Optimizer::compute_def_use_sets` (CodeGenerator.h:239-264)

The C++ inserts into `block.def` and `defined_in_block` in lockstep, so the
two sets are always equal and are modelled as one. -/

/-- One instruction of the forward def/use scan: an operand name is a use if
not yet defined in the block; the result name is a def. -/
def duStep (acc : Finset String × Finset String) (q : Quadruple) :
    Finset String × Finset String :=
  let (u, d) := acc
  let u1 := if q.arg1.isVar ∧ q.arg1.name ∉ d then insert q.arg1.name u else u
  let u2 := if q.arg2.isVar ∧ q.arg2.name ∉ d then insert q.arg2.name u1 else u1
  let d1 := if q.result.isVar then insert q.result.name d else d
  (u2, d1)

/-- Per-block def/use computation, `(use, def)`. -/
def computeDefUseQuads (qs : List Quadruple) : Finset String × Finset String :=
  qs.foldl duStep (∅, ∅)

/-- `Optimizer::compute_def_use_sets` (CodeGenerator.h:239-264). -/
def compute_def_use_sets (bs : List BasicBlock) : List BasicBlock :=
  bs.map (fun b =>
    let (u, d) := computeDefUseQuads b.quads
    { b with useS := u, defS := d })

/-! ### `Optimizer::compute_live_variables` (CodeGenerator.h:266-293)

The repeated Gauss–Seidel sweep updates the blocks in place; only the
`use`/`def`/`successors` fields are read and only `live_in`/`live_out` are
written, so the static part is split off (`BInfo`) and the mutable part is a
list of `(live_in, live_out)` pairs (`LState`). -/

structure BInfo where
  useS : Finset String
  defS : Finset String
  succs : Finset ℕ

abbrev LState := List (Finset String × Finset String)

def lIn (st : LState) (k : ℕ) : Finset String := (st.getD k (∅, ∅)).1

def lOut (st : LState) (k : ℕ) : Finset String := (st.getD k (∅, ∅)).2

/-- `new_live_out`: union of the successors' current `live_in`. -/
def newOut (bs : List BInfo) (st : LState) (k : ℕ) : Finset String :=
  (bs.getD k ⟨∅, ∅, ∅⟩).succs.biUnion (fun j => lIn st j)

/-- `new_live_in = use ∪ (new_live_out − def)`. -/
def newIn (bs : List BInfo) (st : LState) (k : ℕ) : Finset String :=
  (bs.getD k ⟨∅, ∅, ∅⟩).useS ∪ (newOut bs st k \ (bs.getD k ⟨∅, ∅, ∅⟩).defS)

/-- Processing of one block inside the sweep (CodeGenerator.h:270-291):
recompute both sets, store them, and raise `changed` if either differs. -/
def sweepStep (bs : List BInfo) (acc : LState × Bool) (k : ℕ) : LState × Bool :=
  let ni := newIn bs acc.1 k
  let no := newOut bs acc.1 k
  (acc.1.set k (ni, no),
    acc.2 || !(decide (ni = lIn acc.1 k ∧ no = lOut acc.1 k)))

/-- One full `for (auto& block : blocks)` sweep of the do-while loop. -/
def sweep (bs : List BInfo) (st : LState) : LState × Bool :=
  (List.range bs.length).foldl (sweepStep bs) (st, false)

/-- The do-while loop with explicit fuel: sweep while some set changed. -/
def liveRun (bs : List BInfo) : ℕ → LState → LState
  | 0, st => st
  | n + 1, st =>
    let p := sweep bs st
    if p.2 then liveRun bs n p.1 else p.1

/-- All names occurring in any block's `use` or `def` set: the finite
universe the live sets live in. -/
def liveUniverse (bs : List BInfo) : Finset String :=
  bs.foldl (fun a b => a ∪ b.useS ∪ b.defS) ∅

/-- Fuel that (provably) suffices for the do-while loop to reach its fixed
point: one more than the maximal total size of the live sets. -/
def liveFuel (bs : List BInfo) : ℕ := 2 * bs.length * (liveUniverse bs).card + 1

def initLState (n : ℕ) : LState := List.replicate n (∅, ∅)

def computeLiveState (bs : List BInfo) : LState :=
  liveRun bs (liveFuel bs) (initLState bs.length)

def BasicBlock.info (b : BasicBlock) : BInfo := ⟨b.useS, b.defS, b.successors⟩

/-- `Optimizer::compute_live_variables` (CodeGenerator.h:266-293). -/
def compute_live_variables (blocks : List BasicBlock) : List BasicBlock :=
  let st := computeLiveState (blocks.map BasicBlock.info)
  (List.range blocks.length).map (fun k =>
    { blocks.getD k default with live_in := lIn st k, live_out := lOut st k })

/-- The liveness stage of `optimize` (CodeGenerator.h:85-86):
`compute_def_use_sets` immediately followed by `compute_live_variables`. -/
def livenessAnalyze (blocks : List BasicBlock) : List BasicBlock :=
  compute_live_variables (compute_def_use_sets blocks)

/-! ### The per-block peephole pipeline of `optimize_basic_blocks`
(CodeGenerator.h:295-400) and its file-static helpers. -/

/-- One instruction of `eliminate_redundant_stores_in_block`
(CodeGenerator.h:650-675): reads clear the pending store of the read
identifier, `CALL` clears everything, and a store to an identifier with a
pending unread store marks that earlier store redundant.  State:
(pending-store map name → index, marked indices). -/
def rsStep (acc : (String → Option ℕ) × Finset ℕ) (iq : ℕ × Quadruple) :
    (String → Option ℕ) × Finset ℕ :=
  let (m, marks) := acc
  let (i, q) := iq
  let m1 :=
    if q.arg1.type = OperandType.IDENTIFIER then
      fun k => if k = q.arg1.name then none else m k
    else m
  let m2 :=
    if q.arg2.type = OperandType.IDENTIFIER then
      fun k => if k = q.arg2.name then none else m1 k
    else m1
  let m3 := if q.op = OpCode.CALL then fun _ => none else m2
  if q.result.type = OperandType.IDENTIFIER then
    let marks1 :=
      match m3 q.result.name with
      | some j => insert j marks
      | none => marks
    (fun k => if k = q.result.name then some i else m3 k, marks1)
  else (m3, marks)

/-- `eliminate_redundant_stores_in_block` (CodeGenerator.h:641-686). -/
def eliminate_redundant_stores_in_block (qs : List Quadruple) : List Quadruple :=
  let marks := (qs.enum.foldl rsStep (fun _ => none, ∅)).2
  (qs.enum.filter (fun p => !(decide (p.1 ∈ marks)))).map Prod.snd

/-- Live-set update used by the backward scans of snapshot A
(e.g. CodeGenerator.h:373-386): erase the result name, insert the
`IDENTIFIER`/`TEMPORARY` argument names. -/
def updLive (live : Finset String) (q : Quadruple) : Finset String :=
  let l1 := if q.result.isVar then live.erase q.result.name else live
  let l2 := if q.arg1.isVar then insert q.arg1.name l1 else l1
  if q.arg2.isVar then insert q.arg2.name l2 else l2

/-- Backward scan of `fold_temps_in_block` (CodeGenerator.h:697-750) on the
reversed block, producing the reversed output: the pattern
`t := a op b; v := t` with `t` not live afterwards collapses to
`v := a op b`. -/
def ftGo : List Quadruple → Finset String → List Quadruple
  | [], _ => []
  | [c], live => c :: ftGo [] (updLive live c)
  | c :: p :: rest, live =>
    if c.op = OpCode.ASSIGN ∧ c.arg1.type = OperandType.TEMPORARY ∧
        c.arg2.name = "" ∧ c.arg1.name ∉ live ∧
        isArith p.op ∧ p.result.type = OperandType.TEMPORARY ∧
        p.result.name = c.arg1.name then
      let folded := { p with result := c.result }
      folded :: ftGo rest (updLive live folded)
    else
      c :: ftGo (p :: rest) (updLive live c)

/-- `fold_temps_in_block` (CodeGenerator.h:688-754). -/
def fold_temps_in_block (qs : List Quadruple) (live_out : Finset String) :
    List Quadruple :=
  (ftGo qs.reverse live_out).reverse

/-- Stage 1 of `optimize_basic_blocks` (CodeGenerator.h:305-338): inline
constant folding.  Unlike the standalone `constant_folding` pass, the pool
indices are not range-checked and *division by zero is folded to the
constant 0* (`result = val2 != 0 ? val1 / val2 : 0`). -/
def foldConstantsBlock (pool : List Val) : List Quadruple → List Quadruple × List Val
  | [] => ([], pool)
  | q :: rest =>
    if isArith q.op ∧ q.arg1.type = OperandType.CONSTANT ∧
        q.arg2.type = OperandType.CONSTANT then
      let v1 := poolRead pool q.arg1.index
      let v2 := poolRead pool q.arg2.index
      let v :=
        match q.op with
        | OpCode.ADD => v1 + v2
        | OpCode.SUB => v1 - v2
        | OpCode.MUL => v1 * v2
        | OpCode.DIV => if v2 ≠ 0 then v1 / v2 else 0
        | _ => 0
      let (const_index, pool1) := lookupOrAddConstant pool v
      let q1 : Quadruple :=
        ⟨OpCode.ASSIGN, ⟨OperandType.CONSTANT, const_index, constName v⟩,
          Operand.empty, q.result⟩
      let (r, pool2) := foldConstantsBlock pool1 rest
      (q1 :: r, pool2)
    else
      let (r, pool1) := foldConstantsBlock pool rest
      (q :: r, pool1)

/-- The side-effect test of the in-block dead-code elimination
(CodeGenerator.h:358): `PRINT`, `CALL`, any jump, `RETURN`. -/
def sideEffectBlock (op : OpCode) : Bool :=
  op = OpCode.PRINT || op = OpCode.CALL || is_jump_op op || op = OpCode.RETURN

/-- Live-set update of a kept instruction in the in-block DCE
(CodeGenerator.h:373-386), including the redundant extra `PRINT` clause. -/
def dceBlockLive (live : Finset String) (q : Quadruple) : Finset String :=
  let l3 := updLive live q
  if q.op = OpCode.PRINT ∧ q.arg1.isVar then insert q.arg1.name l3 else l3

/-- Stage 3 of `optimize_basic_blocks` (CodeGenerator.h:349-391): backward
in-block dead-code elimination seeded with the block's `live_out`; an
instruction is dead iff it has no side effect, its result is a `TEMPORARY`
and that temporary is not live. -/
def dceBlockGo : List Quadruple → Finset String → List Quadruple × Finset String
  | [], live => ([], live)
  | q :: rest, live =>
    let (r, live1) := dceBlockGo rest live
    let is_dead :=
      !(sideEffectBlock q.op) && decide (q.result.type = OperandType.TEMPORARY) &&
        !(decide (q.result.name ∈ live1))
    if is_dead then (r, live1) else (q :: r, dceBlockLive live1 q)

/-- `Optimizer::optimize_basic_blocks` (CodeGenerator.h:295-400): per block,
run redundant-store elimination, temporary folding, inline constant folding
and in-block DCE, and concatenate the surviving instructions.  (The
`copy_map` built at CodeGenerator.h:341-347 is never read afterwards and has
no effect on the output.) -/
def optimize_basic_blocks (blocks : List BasicBlock) (pool : List Val) :
    List Quadruple × List Val :=
  blocks.foldl
    (fun (acc : List Quadruple × List Val) b =>
      let bq1 := eliminate_redundant_stores_in_block b.quads
      let bq2 := fold_temps_in_block bq1 b.live_out
      let (bq3, pool1) := foldConstantsBlock acc.2 bq2
      let (bq4, _) := dceBlockGo bq3 b.live_out
      (acc.1 ++ bq4, pool1))
    ([], pool)

/-- The side-effect test of snapshot A's whole-sequence dead-code
elimination (CodeGenerator.h:545). -/
def sideEffectWhole (op : OpCode) : Bool :=
  op = OpCode.JMP || op = OpCode.JPF || op = OpCode.PRINT ||
    op = OpCode.CALL || op = OpCode.RETURN

/-- Backward scan of snapshot A's `dead_code_elimination`
(CodeGenerator.h:537-573): an instruction is live iff it has a side effect,
or its result is an `IDENTIFIER`, or its result is a `TEMPORARY` in the
current live set. -/
def dceWholeGo : List Quadruple → Finset String → List Quadruple × Finset String
  | [], live => ([], live)
  | q :: rest, live =>
    let (r, live1) := dceWholeGo rest live
    let is_live :=
      sideEffectWhole q.op || decide (q.result.type = OperandType.IDENTIFIER) ||
        (decide (q.result.type = OperandType.TEMPORARY) &&
          decide (q.result.name ∈ live1))
    if is_live then (q :: r, updLive live1 q) else (r, live1)

/-- `Optimizer::dead_code_elimination` (CodeGenerator.h:523-584), seeded with
every user symbol name. -/
def dead_code_elimination (symNames : List String) (qs : List Quadruple) :
    List Quadruple × Bool :=
  let seed := symNames.foldl (fun s n => insert n s) (∅ : Finset String)
  let (r, _) := dceWholeGo qs seed
  if r.length = qs.length then (qs, false) else (r, true)

/-! ### `Optimizer::recompute_jump_targets` (CodeGenerator.h:586-639) -/

/-- Step 1 (CodeGenerator.h:588-593): label id → current line of its `LABEL`
instruction (a later occurrence of the same id overwrites an earlier one). -/
def labelLine (qs : List Quadruple) : Int → Option ℕ :=
  qs.enum.foldl
    (fun m p =>
      if p.2.op = OpCode.LABEL then
        fun l => if l = p.2.result.index then some p.1 else m l
      else m)
    (fun _ => none)

/-- Step 2 (CodeGenerator.h:597-603): number of `LABEL` instructions strictly
before line `i`. -/
def labelsBefore (qs : List Quadruple) (i : ℕ) : ℕ :=
  ((qs.take i).filter (fun q => decide (q.op = OpCode.LABEL))).length

/-- `final_quad_count` (CodeGenerator.h:606): instruction count once all
labels are removed. -/
def finalCount (qs : List Quadruple) : ℕ :=
  qs.length - (qs.filter (fun q => decide (q.op = OpCode.LABEL))).length

/-- Step 3 (CodeGenerator.h:609-633): retarget one jump; a jump whose label
id has no `LABEL` line is sent to one past the end of the final sequence. -/
def retargetQuad (qs : List Quadruple) (q : Quadruple) : Quadruple :=
  if is_jump_op q.op then
    match labelLine qs q.result.index with
    | some tl =>
      let fin := tl - labelsBefore qs tl
      { q with result := { q.result with index := (fin : Int), name := toString fin } }
    | none =>
      { q with result :=
          { q.result with index := (finalCount qs : Int)
                          name := toString (finalCount qs) } }
  else q

/-- `Optimizer::recompute_jump_targets` (CodeGenerator.h:586-639). -/
def recompute_jump_targets (qs : List Quadruple) : List Quadruple :=
  (qs.map (retargetQuad qs)).filter (fun q => !(decide (q.op = OpCode.LABEL)))

/-- `Optimizer::optimize` (CodeGenerator.h:85-155): early-return on an empty
sequence, then label lowering, basic blocks, def/use, liveness, the
per-block pipeline, and jump finalization, each run once. -/
def optimize (pool : List Val) (qs : List Quadruple) : List Quadruple × List Val :=
  if qs = [] then ([], pool)
  else
    let lq := labelQuads qs
    let blocks := compute_live_variables (compute_def_use_sets (build_basic_blocks lq))
    let (oq, pool1) := optimize_basic_blocks blocks pool
    (recompute_jump_targets oq, pool1)

end SnapA

/-! ## Notions used to state and prove the liveness fixed point -/

namespace SnapA

/-- Pointwise inclusion of live-state vectors (`(live_in, live_out)` pairs,
compared slot by slot through the `getD` accessors). -/
def stLE (st st2 : LState) : Prop :=
  ∀ k, lIn st k ⊆ lIn st2 k ∧ lOut st k ⊆ lOut st2 k

/-- Total size of a live state: the summed cardinalities of all sets. -/
def lsize (st : LState) : ℕ := (st.map (fun p => p.1.card + p.2.card)).sum

/-- Every live set is drawn from the universe of block `use`/`def` names. -/
def stInU (bs : List BInfo) (st : LState) : Prop :=
  ∀ k, lIn st k ⊆ liveUniverse bs ∧ lOut st k ⊆ liveUniverse bs

end SnapA

/-- The instruction reads the name `x` in one of its argument slots. -/
def readsName (q : Quadruple) (x : String) : Prop :=
  (q.arg1.isVar = true ∧ q.arg1.name = x) ∨ (q.arg2.isVar = true ∧ q.arg2.name = x)

/-! ## Concrete example inputs used by the theorems below -/

/-- `t0 := 1 / 0`, both operands pooled constants (pool `[1, 0]`). -/
def exDivQuad : Quadruple :=
  ⟨OpCode.DIV, ⟨OperandType.CONSTANT, 0, "1"⟩, ⟨OperandType.CONSTANT, 1, "0"⟩,
    ⟨OperandType.TEMPORARY, -1, "t0"⟩⟩

/-- The loop `i := i + 1; x := i * 2; jump back to 0` (snapshot B opcodes),
with user symbols `i`, `x` and pool `[1, 2]`. -/
def exLoopState : SnapB.OptState :=
  { quads :=
      [ ⟨OpCode.ADD, ⟨OperandType.IDENTIFIER, 0, "i"⟩,
          ⟨OperandType.CONSTANT, 0, "1"⟩, ⟨OperandType.IDENTIFIER, 0, "i"⟩⟩
      , ⟨OpCode.MUL, ⟨OperandType.IDENTIFIER, 0, "i"⟩,
          ⟨OperandType.CONSTANT, 1, "2"⟩, ⟨OperandType.IDENTIFIER, 1, "x"⟩⟩
      , ⟨OpCode.JUMP, Operand.empty, Operand.empty,
          ⟨OperandType.LABEL, 0, "0"⟩⟩ ]
    pool := [1, 2]
    syms := ["i", "x"]
    counter := 0 }

/-- `LABEL L0; x := 1; JMP L0` — a self-loop in snapshot A's labeled form. -/
def exSelfLoop : List Quadruple :=
  [ ⟨OpCode.LABEL, Operand.empty, Operand.empty, ⟨OperandType.LABEL, 0, "L0"⟩⟩
  , ⟨OpCode.ASSIGN, ⟨OperandType.CONSTANT, 0, "1"⟩, Operand.empty,
      ⟨OperandType.IDENTIFIER, 0, "x"⟩⟩
  , ⟨OpCode.JMP, Operand.empty, Operand.empty, ⟨OperandType.LABEL, 0, "L0"⟩⟩ ]

/-- `JPF t0 → label 7 (no such label); LABEL L0; x := 1; JMP → L0`. -/
def exJumps : List Quadruple :=
  [ ⟨OpCode.JPF, ⟨OperandType.TEMPORARY, -1, "t0"⟩, Operand.empty,
      ⟨OperandType.LABEL, 7, "L7"⟩⟩
  , ⟨OpCode.LABEL, Operand.empty, Operand.empty, ⟨OperandType.LABEL, 0, "L0"⟩⟩
  , ⟨OpCode.ASSIGN, ⟨OperandType.CONSTANT, 0, "1"⟩, Operand.empty,
      ⟨OperandType.IDENTIFIER, 0, "x"⟩⟩
  , ⟨OpCode.JMP, Operand.empty, Operand.empty, ⟨OperandType.LABEL, 0, "L0"⟩⟩ ]

/-- Two consecutive stores to the user variable `x` with no read between. -/
def exDoubleStore : List Quadruple :=
  [ ⟨OpCode.ASSIGN, ⟨OperandType.CONSTANT, 0, "1"⟩, Operand.empty,
      ⟨OperandType.IDENTIFIER, 0, "x"⟩⟩
  , ⟨OpCode.ASSIGN, ⟨OperandType.CONSTANT, 1, "2"⟩, Operand.empty,
      ⟨OperandType.IDENTIFIER, 0, "x"⟩⟩ ]

/-- `a := b` — creates one copy-map entry. -/
def exCopy : List Quadruple :=
  [ ⟨OpCode.ASSIGN, ⟨OperandType.IDENTIFIER, 1, "b"⟩, Operand.empty,
      ⟨OperandType.IDENTIFIER, 0, "a"⟩⟩ ]

/-- A symbol table with `y` bound in the outer scope and an empty top scope. -/
def exSymTab : SymbolTable :=
  { symbol_entries := [⟨"y", 0⟩], scope_stack := [[("y", 0)], []] }

/-- A single self-looping block `x := y` (successor set `{0}`), entering the
liveness analysis with all four analysis sets empty. -/
def exLiveBlocks : List SnapA.BasicBlock :=
  [ { quads :=
        [ ⟨OpCode.ASSIGN, ⟨OperandType.IDENTIFIER, 1, "y"⟩, Operand.empty,
            ⟨OperandType.IDENTIFIER, 0, "x"⟩⟩ ]
      predecessors := {0}
      successors := {0}
      defS := ∅
      useS := ∅
      live_in := ∅
      live_out := ∅ } ]

/-- The instruction writes (redefines) the name `x`: its result operand is an
`IDENTIFIER`/`TEMPORARY` named `x`. -/
def writesName (q : Quadruple) (x : String) : Prop :=
  q.result.isVar = true ∧ q.result.name = x

/-! ## Helper lemmas -/

theorem labelInsertGo_length_ge (targets : Finset Int) :
    ∀ (l : List (ℕ × Quadruple)) (m : List (Int × ℕ)) (n : ℕ),
      l.length ≤ (SnapA.labelInsertGo targets l m n).1.length := by
  intro l
  induction l with
  | nil => intro m n; simp [SnapA.labelInsertGo]
  | cons p rest ih =>
    intro m n
    obtain ⟨i, q⟩ := p
    simp only [SnapA.labelInsertGo]
    split
    · have h := ih (((i : Int), n) :: m) (n + 1)
      cases hr : SnapA.labelInsertGo targets rest (((i : Int), n) :: m) (n + 1) with
      | mk r m1 =>
        simp only [hr] at h ⊢
        simp only [List.length_cons]
        omega
    · have h := ih m n
      cases hr : SnapA.labelInsertGo targets rest m n with
      | mk r m1 =>
        simp only [hr] at h ⊢
        simp only [List.length_cons]
        omega

/-! ## Theorems for the claims -/

/-- C1: constant folding of `ADD`/`SUB`/`MUL` with two `CONSTANT` operands
rewrites to `ASSIGN` of a pooled constant, and `DIV` is claimed to be
*skipped* exactly when the second pooled value is `0`, leaving the
instruction unmodified.  The standalone `constant_folding` pass does behave
that way, but the inline folding that `optimize_basic_blocks` actually runs
(CodeGenerator.h:321) *folds* `t0 := 1 / 0` into `ASSIGN` of the pooled
constant `0` instead of leaving it unmodified: the two behaviours are
evaluated side by side on the same instruction and pool. -/
theorem foldConstantsBlock_folds_div_by_zero :
    SnapA.foldConstantsBlock [1, 0] [exDivQuad] =
      ([⟨OpCode.ASSIGN, ⟨OperandType.CONSTANT, 1, "0"⟩, Operand.empty,
          ⟨OperandType.TEMPORARY, -1, "t0"⟩⟩], [1, 0]) ∧
    (SnapA.foldConstantsBlock [1, 0] [exDivQuad]).1 ≠ [exDivQuad] ∧
    constant_folding [1, 0] [exDivQuad] = ([exDivQuad], [1, 0], false) := by
  decide

/-- C2: on the three-instruction loop `i := i + 1; x := i * 2; JUMP 0` the
driver's fixed-point loop is still RUNNING after twelve iterations — four
times the sequence length — because strength reduction re-detects the
multiply it itself inserted at the loop start (jump ordinals are never
updated after an insertion), so the claimed bound (number of iterations at
most the sequence length) fails; the driver also performs no jump/label
finalization at all. -/
theorem driver_still_running_after_twelve_iterations :
    exLoopState.quads.length = 3 ∧ SnapB.allChanged 12 exLoopState = true := by
  constructor
  · rfl
  · decide

/-- C3: on `LABEL L0; x := 1; JMP L0` the builder produces a single block
ending in the unconditional `JMP`, whose resolved target is that very block;
the claim demands exactly one successor, but the builder's `label_to_block`
map is never populated (CodeGenerator.h:159 is its only write-free mention),
so the block ends with no successors and no predecessors at all. -/
theorem build_basic_blocks_jump_block_has_no_successors :
    (SnapA.build_basic_blocks exSelfLoop).length = 1 ∧
    ((SnapA.build_basic_blocks exSelfLoop).getD 0 default).quads.getLast?.map
        (fun q => q.op) = some OpCode.JMP ∧
    ((SnapA.build_basic_blocks exSelfLoop).getD 0 default).successors = ∅ ∧
    ((SnapA.build_basic_blocks exSelfLoop).getD 0 default).predecessors = ∅ := by
  refine ⟨by decide, by decide, ?_, ?_⟩ <;> decide

/-- C5 counterexample: the whole-sequence dead-code elimination of
Compiler-main-2 drops the first of two consecutive stores to the user
`IDENTIFIER` `x` (its liveness test applies to identifiers as well, the
claimed rule "an instruction whose result is an Identifier is always kept"
does not hold there). -/
theorem dce_snapB_drops_identifier_store :
    SnapB.dead_code_elimination ["x"] exDoubleStore =
      ([⟨OpCode.ASSIGN, ⟨OperandType.CONSTANT, 1, "2"⟩, Operand.empty,
          ⟨OperandType.IDENTIFIER, 0, "x"⟩⟩], true) := by
  decide

/-- C9: `add_symbol` fails exactly on a redefinition within the current
(innermost) scope; a hit in an outer scope alone never fails; on failure the
table is untouched, and on success exactly one entry is appended and bound
in the current scope while the outer scopes are unchanged. -/
theorem add_symbol_iff_redefinition_in_top_scope
    (st : SymbolTable) (e : SymbolEntry) (h : st.scope_stack ≠ []) :
    ((st.add_symbol e).1 = false ↔ (st.topScope.lookup e.name).isSome = true) ∧
    ((st.add_symbol e).1 = false → (st.add_symbol e).2 = st) ∧
    ((st.add_symbol e).1 = true →
      (st.add_symbol e).2.symbol_entries = st.symbol_entries ++ [e] ∧
      (st.add_symbol e).2.topScope =
        (e.name, st.symbol_entries.length) :: st.topScope ∧
      (st.add_symbol e).2.scope_stack.dropLast = st.scope_stack.dropLast) := by
  obtain ⟨cs, hcs⟩ : ∃ cs, st.scope_stack.getLast? = some cs := by
    cases hl : st.scope_stack.getLast? with
    | none => exact absurd (List.getLast?_eq_none_iff.mp hl) h
    | some cs => exact ⟨cs, rfl⟩
  have htop : st.topScope = cs := by simp [SymbolTable.topScope, hcs]
  by_cases hp : (cs.lookup e.name).isSome
  · refine ⟨?_, ?_, ?_⟩
    · simp [SymbolTable.add_symbol, hcs, hp, htop]
    · intro _; simp [SymbolTable.add_symbol, hcs, hp]
    · intro hfalse
      simp [SymbolTable.add_symbol, hcs, hp] at hfalse
  · refine ⟨?_, ?_, ?_⟩
    · simp [SymbolTable.add_symbol, hcs, hp, htop]
    · intro hfalse
      simp [SymbolTable.add_symbol, hcs, hp] at hfalse
    · intro _
      refine ⟨?_, ?_, ?_⟩
      · simp [SymbolTable.add_symbol, hcs, hp]
      · simp [SymbolTable.add_symbol, SymbolTable.topScope, hcs, hp, htop,
          List.getLast?_concat]
      · simp [SymbolTable.add_symbol, hcs, hp, List.dropLast_concat]

/-- Witness for C9 at a concrete table: the top scope is empty while the
outer scope already binds `y`, and adding `y` nevertheless succeeds,
appending one entry and binding it in the top scope. -/
theorem add_symbol_iff_redefinition_in_top_scope_witness :
    ((exSymTab.add_symbol ⟨"y", 1⟩).1 = false ↔
      (exSymTab.topScope.lookup "y").isSome = true) ∧
    ((exSymTab.add_symbol ⟨"y", 1⟩).1 = false →
      (exSymTab.add_symbol ⟨"y", 1⟩).2 = exSymTab) ∧
    ((exSymTab.add_symbol ⟨"y", 1⟩).1 = true →
      (exSymTab.add_symbol ⟨"y", 1⟩).2.symbol_entries =
        exSymTab.symbol_entries ++ [⟨"y", 1⟩] ∧
      (exSymTab.add_symbol ⟨"y", 1⟩).2.topScope =
        ("y", exSymTab.symbol_entries.length) :: exSymTab.topScope ∧
      (exSymTab.add_symbol ⟨"y", 1⟩).2.scope_stack.dropLast =
        exSymTab.scope_stack.dropLast) :=
  add_symbol_iff_redefinition_in_top_scope exSymTab ⟨"y", 1⟩ (by decide)

/-- C10: `optimize` returns the empty sequence for the empty input via its
early guard, without touching the pool; and the labeled sequence handed to
`build_basic_blocks` is non-empty whenever the input is, so the
unconditional `is_block_entry[0] = true` write is in bounds. -/
theorem optimize_empty_guard :
    (∀ pool : List Val, SnapA.optimize pool [] = ([], pool)) ∧
    ∀ qs : List Quadruple, qs ≠ [] → 0 < (SnapA.labelQuads qs).length := by
  constructor
  · intro pool; simp [SnapA.optimize]
  · intro qs hne
    have h := labelInsertGo_length_ge (SnapA.jumpTargetLines qs) qs.enum [] 0
    have hlen : (SnapA.labelQuads qs).length =
        (SnapA.labelInsertGo (SnapA.jumpTargetLines qs) qs.enum [] 0).1.length := by
      cases he : SnapA.labelInsertGo (SnapA.jumpTargetLines qs) qs.enum [] 0 with
      | mk lq m => simp [SnapA.labelQuads, he]
    have h2 : 0 < qs.length := List.length_pos.mpr hne
    simp only [List.enum_length] at h
    omega

/-- Witness for C10 on a concrete one-instruction input. -/
theorem optimize_empty_guard_witness :
    ([exDivQuad] ≠ ([] : List Quadruple)) ∧
    0 < (SnapA.labelQuads [exDivQuad]).length :=
  ⟨by decide, optimize_empty_guard.2 [exDivQuad] (by decide)⟩

/-! ### Common-subexpression elimination: idempotence (C7) -/

theorem cseInvalidate_congr (s : CseState) (q q' : Quadruple)
    (h : q'.result = q.result) : cseInvalidate s q' = cseInvalidate s q := by
  simp [cseInvalidate, h]

/-- Second run of the CSE scan from the same start state: every instruction
the first run rewrote is now an `ASSIGN` (hence neither matched nor
recorded), every surviving arithmetic instruction meets the same available
set as in the first run, and the state evolution is identical — so nothing
changes. -/
theorem cseGo_second_run (qs : List Quadruple) : ∀ s : CseState,
    cseGo s (cseGo s qs).1 = ((cseGo s qs).1, false) := by
  induction qs with
  | nil => intro s; rfl
  | cons q rest ih =>
    intro s
    by_cases ha : isArith q.op = true
    · cases hav : (cseInvalidate s q).available_exprs (normalizeExpr q) with
      | some holder =>
        cases hr : cseGo (cseInvalidate s q) rest with
        | mk r1 c1 =>
          have hfst : (cseGo s (q :: rest)).1 =
              { q with op := OpCode.ASSIGN,
                       arg1 := ⟨OperandType.TEMPORARY, -1, holder⟩,
                       arg2 := Operand.empty } :: r1 := by
            simp [cseGo, ha, hav, hr]
          rw [hfst]
          have hinv : cseInvalidate s
              { q with op := OpCode.ASSIGN,
                       arg1 := ⟨OperandType.TEMPORARY, -1, holder⟩,
                       arg2 := Operand.empty } = cseInvalidate s q :=
            cseInvalidate_congr s q _ rfl
          have hgo := ih (cseInvalidate s q)
          rw [hr] at hgo
          simp [cseGo, hinv, hgo, hfst, show isArith OpCode.ASSIGN = false from rfl]
      | none =>
        cases hr : cseGo (cseRecord (cseInvalidate s q) q (normalizeExpr q)) rest with
        | mk r1 c1 =>
          have hfst : (cseGo s (q :: rest)).1 = q :: r1 := by
            simp [cseGo, ha, hav, hr]
          rw [hfst]
          have hgo := ih (cseRecord (cseInvalidate s q) q (normalizeExpr q))
          rw [hr] at hgo
          simp [cseGo, ha, hav, hgo, hfst, hr]
    · cases hr : cseGo (cseInvalidate s q) rest with
      | mk r1 c1 =>
        have hfst : (cseGo s (q :: rest)).1 = q :: r1 := by
          simp [cseGo, ha, hr]
        rw [hfst]
        have hgo := ih (cseInvalidate s q)
        rw [hr] at hgo
        simp [cseGo, ha, hgo, hfst, hr]

/-- C7: `eliminate_common_subexpressions` is idempotent: a second run
immediately after a first run, with no other pass in between, leaves the
sequence unchanged and reports no change (returns `false`).  The code is
identical in both snapshots (CodeGenerator.h:447-482, Optimizer.cpp:237-269). -/
theorem cse_idempotent (qs : List Quadruple) :
    eliminate_common_subexpressions (eliminate_common_subexpressions qs).1 =
      ((eliminate_common_subexpressions qs).1, false) :=
  cseGo_second_run qs CseState.init

/-! ### Copy propagation: the copy map is never stale (C8) -/

theorem cpKill_spec (m : String → Option String) (r k v : String)
    (h : cpKill m r k = some v) : k ≠ r ∧ v ≠ r ∧ m k = some v := by
  unfold cpKill at h
  by_cases hk : k = r
  · simp [hk] at h
  · simp only [hk, if_false] at h
    cases hmk : m k with
    | none => rw [hmk] at h; simp at h
    | some v0 =>
      rw [hmk] at h
      by_cases hv : v0 = r
      · simp [hv] at h
      · simp only [hv, if_false] at h
        obtain rfl := Option.some.inj h
        exact ⟨hk, hv, rfl⟩

/-- Step discipline: if the map after an instruction that writes a name
still has an entry whose key or value is that name, then the entry is the
one the instruction itself just recorded (purging happens before
recording). -/
theorem cpStepMap_purges_before_record (m : String → Option String)
    (q : Quadruple) (k v : String)
    (hm : cpStepMap m q k = some v) (hw : q.result.isVar = true)
    (hkv : k = q.result.name ∨ v = q.result.name) :
    q.op = OpCode.ASSIGN ∧ k = q.result.name ∧
      (cpSubstArg m q.arg1).1.isVar = true ∧
      v = (cpSubstArg m q.arg1).1.name ∧ k ≠ v := by
  unfold cpStepMap at hm
  simp only [hw, if_true] at hm
  by_cases hc : q.op = OpCode.ASSIGN ∧ (cpSubstArg m q.arg1).1.isVar = true ∧
      q.result.name ≠ (cpSubstArg m q.arg1).1.name
  · rw [if_pos hc] at hm
    by_cases hk : k = q.result.name
    · rw [if_pos hk] at hm
      obtain rfl := Option.some.inj hm
      exact ⟨hc.1, hk, hc.2.1, rfl, by rw [hk]; exact hc.2.2⟩
    · rw [if_neg hk] at hm
      obtain ⟨h1, h2, _⟩ := cpKill_spec m q.result.name k v hm
      rcases hkv with h | h
      · exact absurd h h1
      · exact absurd h h2
  · rw [if_neg hc] at hm
    obtain ⟨h1, h2, _⟩ := cpKill_spec m q.result.name k v hm
    rcases hkv with h | h
    · exact absurd h h1
    · exact absurd h h2

theorem cpMapAfter_zero (qs : List Quadruple) : cpMapAfter qs 0 = fun _ => none :=
  rfl

theorem cpMapAfter_succ (qs : List Quadruple) (t : ℕ) (h : t < qs.length) :
    cpMapAfter qs (t + 1) = cpStepMap (cpMapAfter qs t) (qs.getD t default) := by
  unfold cpMapAfter
  rw [List.take_succ, List.foldl_append, List.getElem?_eq_getElem h]
  simp [List.getD_eq_getElem?_getD, List.getElem?_eq_getElem h]

theorem cpMapAfter_stable (qs : List Quadruple) (t : ℕ) (h : qs.length ≤ t) :
    cpMapAfter qs (t + 1) = cpMapAfter qs t := by
  unfold cpMapAfter
  rw [List.take_of_length_le (by omega), List.take_of_length_le h]

/-- Scan invariant: every entry `k ↦ v` of the copy map was created by an
earlier `ASSIGN k := v` (with `v` the substituted source name), and no
instruction between the creation point and the current point redefines `k`
or `v`. -/
theorem cpMap_entry_not_redefined (qs : List Quadruple) : ∀ (t : ℕ) (k v : String),
    cpMapAfter qs t k = some v →
    k ≠ v ∧
    ∃ j, j < t ∧ j < qs.length ∧
      (qs.getD j default).op = OpCode.ASSIGN ∧
      (qs.getD j default).result.name = k ∧
      (cpSubstArg (cpMapAfter qs j) (qs.getD j default).arg1).1.isVar = true ∧
      (cpSubstArg (cpMapAfter qs j) (qs.getD j default).arg1).1.name = v ∧
      (∀ i, j < i → i < t → i < qs.length →
        ¬ writesName (qs.getD i default) k ∧ ¬ writesName (qs.getD i default) v) := by
  intro t
  induction t with
  | zero =>
    intro k v hm
    rw [cpMapAfter_zero] at hm
    exact absurd hm (by simp)
  | succ t ih =>
    intro k v hm
    by_cases ht : t < qs.length
    · rw [cpMapAfter_succ qs t ht] at hm
      simp only [cpStepMap] at hm
      have hold : ((if (qs.getD t default).result.isVar = true then
            cpKill (cpMapAfter qs t) (qs.getD t default).result.name
          else cpMapAfter qs t) k = some v) →
          k ≠ v ∧
          ∃ j, j < t + 1 ∧ j < qs.length ∧
            (qs.getD j default).op = OpCode.ASSIGN ∧
            (qs.getD j default).result.name = k ∧
            (cpSubstArg (cpMapAfter qs j) (qs.getD j default).arg1).1.isVar = true ∧
            (cpSubstArg (cpMapAfter qs j) (qs.getD j default).arg1).1.name = v ∧
            (∀ i, j < i → i < t + 1 → i < qs.length →
              ¬ writesName (qs.getD i default) k ∧
                ¬ writesName (qs.getD i default) v) := by
        intro hm1
        by_cases hv : (qs.getD t default).result.isVar = true
        · rw [if_pos hv] at hm1
          obtain ⟨hkr, hvr, hmk⟩ :=
            cpKill_spec (cpMapAfter qs t) (qs.getD t default).result.name k v hm1
          obtain ⟨hkv, j, hjt, hjlen, hop, hres, hsv, hsn, hint⟩ := ih k v hmk
          refine ⟨hkv, j, by omega, hjlen, hop, hres, hsv, hsn, ?_⟩
          intro i hji hit hilen
          by_cases hit' : i < t
          · exact hint i hji hit' hilen
          · have : i = t := by omega
            subst this
            constructor
            · intro hw; exact hkr hw.2.symm
            · intro hw; exact hvr hw.2.symm
        · rw [if_neg hv] at hm1
          obtain ⟨hkv, j, hjt, hjlen, hop, hres, hsv, hsn, hint⟩ := ih k v hm1
          refine ⟨hkv, j, by omega, hjlen, hop, hres, hsv, hsn, ?_⟩
          intro i hji hit hilen
          by_cases hit' : i < t
          · exact hint i hji hit' hilen
          · have : i = t := by omega
            subst this
            exact ⟨fun hw => hv hw.1, fun hw => hv hw.1⟩
      by_cases hc : (qs.getD t default).op = OpCode.ASSIGN ∧
          (cpSubstArg (cpMapAfter qs t) (qs.getD t default).arg1).1.isVar = true ∧
          (qs.getD t default).result.name ≠
            (cpSubstArg (cpMapAfter qs t) (qs.getD t default).arg1).1.name
      · rw [if_pos hc] at hm
        by_cases hk : k = (qs.getD t default).result.name
        · rw [if_pos hk] at hm
          obtain rfl := Option.some.inj hm
          refine ⟨by rw [hk]; exact hc.2.2, t, by omega, ht, hc.1, hk.symm, hc.2.1,
            rfl, ?_⟩
          intro i hji hit
          omega
        · rw [if_neg hk] at hm
          exact hold hm
      · rw [if_neg hc] at hm
        exact hold hm
    · rw [cpMapAfter_stable qs t (by omega)] at hm
      obtain ⟨hkv, j, hjt, hjlen, hop, hres, hsv, hsn, hint⟩ := ih k v hm
      refine ⟨hkv, j, by omega, hjlen, hop, hres, hsv, hsn, ?_⟩
      intro i hji hit hilen
      by_cases hit' : i < t
      · exact hint i hji hit' hilen
      · have : i = t := by omega
        subst this
        exact absurd hilen (by omega)

/-- C8: throughout the forward scan of `copy_propagation`, a write to a name
removes the copy-map entry for that name and every entry mapping to it
before any new copy from that instruction is recorded (first conjunct), so
at every point of the scan each surviving entry `k ↦ v` stems from an
`ASSIGN k := v` with neither `k` nor `v` redefined since — in particular no
transitive chain of copies survives a redefinition of its source (second
conjunct). -/
theorem copy_map_never_stale :
    (∀ (m : String → Option String) (q : Quadruple) (k v : String),
        cpStepMap m q k = some v → q.result.isVar = true →
        (k = q.result.name ∨ v = q.result.name) →
        q.op = OpCode.ASSIGN ∧ k = q.result.name ∧
          (cpSubstArg m q.arg1).1.isVar = true ∧
          v = (cpSubstArg m q.arg1).1.name ∧ k ≠ v) ∧
    (∀ (qs : List Quadruple) (t : ℕ) (k v : String),
        cpMapAfter qs t k = some v →
        k ≠ v ∧
        ∃ j, j < t ∧ j < qs.length ∧
          (qs.getD j default).op = OpCode.ASSIGN ∧
          (qs.getD j default).result.name = k ∧
          (cpSubstArg (cpMapAfter qs j) (qs.getD j default).arg1).1.isVar = true ∧
          (cpSubstArg (cpMapAfter qs j) (qs.getD j default).arg1).1.name = v ∧
          (∀ i, j < i → i < t → i < qs.length →
            ¬ writesName (qs.getD i default) k ∧
              ¬ writesName (qs.getD i default) v)) :=
  ⟨cpStepMap_purges_before_record, fun qs => cpMap_entry_not_redefined qs⟩

/-- Witness for C8 on the single copy `a := b`: after one scan step the map
holds `a ↦ b`, created at position 0, with no redefinition since. -/
theorem copy_map_never_stale_witness :
    "a" ≠ "b" ∧
    ∃ j, j < 1 ∧ j < exCopy.length ∧
      (exCopy.getD j default).op = OpCode.ASSIGN ∧
      (exCopy.getD j default).result.name = "a" ∧
      (cpSubstArg (cpMapAfter exCopy j) (exCopy.getD j default).arg1).1.isVar = true ∧
      (cpSubstArg (cpMapAfter exCopy j) (exCopy.getD j default).arg1).1.name = "b" ∧
      (∀ i, j < i → i < 1 → i < exCopy.length →
        ¬ writesName (exCopy.getD i default) "a" ∧
          ¬ writesName (exCopy.getD i default) "b") :=
  copy_map_never_stale.2 exCopy 1 "a" "b" (by decide)

/-! ### Dead-code elimination: keep/drop conditions (C5, amended) -/

/-- C5 (amended): per-instruction keep/drop rules of the backward scans.
In snapshot A's block-local DCE (first conjunct) and whole-sequence DCE
(second conjunct), a side-effecting instruction (`PRINT`, `CALL`, `RETURN`,
any jump) is always kept, an instruction whose result is an `IDENTIFIER` is
always kept, and a non-side-effecting instruction whose result is a
`TEMPORARY` is dropped exactly when the temporary is not in the live set at
that point; every kept instruction updates the live set with
`dceBlockLive`/`updLive` (erase the result name, insert the argument names).
In the Compiler-main-2 whole-sequence DCE (third conjunct) the protected
side-effect list is only `JUMP`/`JUMP_IF_FALSE`/`CALL`/`PRINT` — `RET` is
not protected and is dropped whenever its result is not a live variable —
and an `IDENTIFIER` result is subject to the same liveness test as a
`TEMPORARY`, so identifier stores are *not* always kept. -/
theorem dce_keep_conditions :
    (∀ (q : Quadruple) (rest : List Quadruple) (live : Finset String),
      (SnapA.sideEffectBlock q.op = true →
        SnapA.dceBlockGo (q :: rest) live =
          (q :: (SnapA.dceBlockGo rest live).1,
            SnapA.dceBlockLive (SnapA.dceBlockGo rest live).2 q)) ∧
      (q.result.type = OperandType.IDENTIFIER →
        SnapA.dceBlockGo (q :: rest) live =
          (q :: (SnapA.dceBlockGo rest live).1,
            SnapA.dceBlockLive (SnapA.dceBlockGo rest live).2 q)) ∧
      (q.result.type = OperandType.TEMPORARY →
        SnapA.sideEffectBlock q.op = false →
        (q.result.name ∉ (SnapA.dceBlockGo rest live).2 →
          SnapA.dceBlockGo (q :: rest) live = SnapA.dceBlockGo rest live) ∧
        (q.result.name ∈ (SnapA.dceBlockGo rest live).2 →
          SnapA.dceBlockGo (q :: rest) live =
            (q :: (SnapA.dceBlockGo rest live).1,
              SnapA.dceBlockLive (SnapA.dceBlockGo rest live).2 q)))) ∧
    (∀ (q : Quadruple) (rest : List Quadruple) (live : Finset String),
      (SnapA.sideEffectWhole q.op = true →
        SnapA.dceWholeGo (q :: rest) live =
          (q :: (SnapA.dceWholeGo rest live).1,
            SnapA.updLive (SnapA.dceWholeGo rest live).2 q)) ∧
      (q.result.type = OperandType.IDENTIFIER →
        SnapA.dceWholeGo (q :: rest) live =
          (q :: (SnapA.dceWholeGo rest live).1,
            SnapA.updLive (SnapA.dceWholeGo rest live).2 q)) ∧
      (q.result.type = OperandType.TEMPORARY →
        SnapA.sideEffectWhole q.op = false →
        (q.result.name ∉ (SnapA.dceWholeGo rest live).2 →
          SnapA.dceWholeGo (q :: rest) live = SnapA.dceWholeGo rest live) ∧
        (q.result.name ∈ (SnapA.dceWholeGo rest live).2 →
          SnapA.dceWholeGo (q :: rest) live =
            (q :: (SnapA.dceWholeGo rest live).1,
              SnapA.updLive (SnapA.dceWholeGo rest live).2 q)))) ∧
    (∀ (q : Quadruple) (rest : List Quadruple) (live : Finset String),
      (SnapB.hasSideEffect q.op = true →
        SnapB.dceGo (q :: rest) live =
          (q :: (SnapB.dceGo rest live).1,
            SnapB.liveUpdate (SnapB.dceGo rest live).2 q)) ∧
      (q.result.isVar = true → SnapB.hasSideEffect q.op = false →
        (q.result.name ∉ (SnapB.dceGo rest live).2 →
          SnapB.dceGo (q :: rest) live = SnapB.dceGo rest live) ∧
        (q.result.name ∈ (SnapB.dceGo rest live).2 →
          SnapB.dceGo (q :: rest) live =
            (q :: (SnapB.dceGo rest live).1,
              SnapB.liveUpdate (SnapB.dceGo rest live).2 q))) ∧
      (q.op = OpCode.RET → q.result.isVar = false →
        SnapB.dceGo (q :: rest) live = SnapB.dceGo rest live)) := by
  refine ⟨?_, ?_, ?_⟩
  · intro q rest live
    cases hp : SnapA.dceBlockGo rest live with
    | mk r l =>
      refine ⟨?_, ?_, ?_⟩
      · intro h; simp [SnapA.dceBlockGo, hp, h]
      · intro h; simp [SnapA.dceBlockGo, hp, h]
      · intro h hs
        constructor
        · intro hm; simp at hm
          simp [SnapA.dceBlockGo, hp, h, hs, hm]
        · intro hm; simp at hm
          simp [SnapA.dceBlockGo, hp, h, hs, hm]
  · intro q rest live
    cases hp : SnapA.dceWholeGo rest live with
    | mk r l =>
      refine ⟨?_, ?_, ?_⟩
      · intro h; simp [SnapA.dceWholeGo, hp, h]
      · intro h; simp [SnapA.dceWholeGo, hp, h]
      · intro h hs
        constructor
        · intro hm; simp at hm
          simp [SnapA.dceWholeGo, hp, h, hs, hm]
        · intro hm; simp at hm
          simp [SnapA.dceWholeGo, hp, h, hs, hm]
  · intro q rest live
    cases hp : SnapB.dceGo rest live with
    | mk r l =>
      refine ⟨?_, ?_, ?_⟩
      · intro h; simp [SnapB.dceGo, hp, h]
      · intro h hs
        constructor
        · intro hm; simp at hm
          simp [SnapB.dceGo, hp, h, hs, hm]
        · intro hm; simp at hm
          simp [SnapB.dceGo, hp, h, hs, hm]
      · intro h hv
        simp [SnapB.dceGo, hp, h, hv, SnapB.hasSideEffect]

/-- Witness for C5 at concrete inputs: the dead temporary store `t0 := 1/0`
with empty live-out is dropped by snapshot A's block-local scan. -/
theorem dce_keep_conditions_witness :
    exDivQuad.result.type = OperandType.TEMPORARY ∧
    SnapA.sideEffectBlock exDivQuad.op = false ∧
    exDivQuad.result.name ∉ (SnapA.dceBlockGo [] (∅ : Finset String)).2 ∧
    SnapA.dceBlockGo [exDivQuad] (∅ : Finset String) =
      SnapA.dceBlockGo [] (∅ : Finset String) :=
  ⟨by decide, by decide, by decide,
    ((dce_keep_conditions.1 exDivQuad [] ∅).2.2 (by decide) (by decide)).1
      (by decide)⟩

/-! ### Jump finalization: soundness (C4) -/

theorem retargetQuad_op (qs : List Quadruple) (q : Quadruple) :
    (SnapA.retargetQuad qs q).op = q.op := by
  by_cases h : SnapA.is_jump_op q.op = true
  · simp only [SnapA.retargetQuad, h, if_true]
    cases SnapA.labelLine qs q.result.index <;> rfl
  · simp [SnapA.retargetQuad, h]

/-- Every line stored in the label-id → line map is in range and holds a
`LABEL` instruction. -/
theorem labelLine_fold_spec (qs : List Quadruple) :
    ∀ (l : List (ℕ × Quadruple)) (m0 : Int → Option ℕ),
      (∀ p ∈ l, p.1 < qs.length ∧ qs.getD p.1 default = p.2) →
      (∀ x tl, m0 x = some tl →
        tl < qs.length ∧ (qs.getD tl default).op = OpCode.LABEL) →
      ∀ x tl,
        (l.foldl
          (fun m p =>
            if p.2.op = OpCode.LABEL then
              fun l2 => if l2 = p.2.result.index then some p.1 else m l2
            else m) m0) x = some tl →
        tl < qs.length ∧ (qs.getD tl default).op = OpCode.LABEL := by
  intro l
  induction l with
  | nil => intro m0 _ hm0 x tl h; exact hm0 x tl h
  | cons p rest ih =>
    intro m0 hel hm0 x tl h
    simp only [List.foldl_cons] at h
    refine ih _ (fun p2 hp2 => hel p2 (List.mem_cons_of_mem p hp2)) ?_ x tl h
    intro x2 tl2 h2
    by_cases hL : p.2.op = OpCode.LABEL
    · rw [if_pos hL] at h2
      by_cases hx : x2 = p.2.result.index
      · rw [if_pos hx] at h2
        obtain rfl := Option.some.inj h2
        obtain ⟨hlt, hget⟩ := hel p (List.mem_cons_self p rest)
        exact ⟨hlt, by rw [hget]; exact hL⟩
      · rw [if_neg hx] at h2
        exact hm0 x2 tl2 h2
    · rw [if_neg hL] at h2
      exact hm0 x2 tl2 h2

theorem labelLine_spec (qs : List Quadruple) (l : Int) (tl : ℕ)
    (h : SnapA.labelLine qs l = some tl) :
    tl < qs.length ∧ (qs.getD tl default).op = OpCode.LABEL := by
  refine labelLine_fold_spec qs qs.enum (fun _ => none) ?_
    (by intro x tl2 h2; cases h2) l tl h
  intro p hp
  obtain ⟨h1, h2⟩ := @List.mem_enum _ p.2 p.1 qs hp
  refine ⟨h1, ?_⟩
  rw [List.getD_eq_getElem?_getD, List.getElem?_eq_getElem h1]
  simp [h2]

theorem finalCount_eq (qs : List Quadruple) :
    SnapA.finalCount qs =
      (qs.filter (fun q => !(decide (q.op = OpCode.LABEL)))).length := by
  have h := @List.length_eq_length_filter_add _
    qs (fun q => decide (q.op = OpCode.LABEL))
  unfold SnapA.finalCount
  omega

/-- The ordinal of a label line in the label-free stream never exceeds the
label-free length. -/
theorem final_target_le (qs : List Quadruple) (tl : ℕ) (h1 : tl < qs.length) :
    tl - SnapA.labelsBefore qs tl ≤ SnapA.finalCount qs := by
  have hsplit := @List.length_eq_length_filter_add _
    (qs.take tl) (fun q => decide (q.op = OpCode.LABEL))
  have hlen : (qs.take tl).length = tl := by
    rw [List.length_take]; omega
  have hsub : ((qs.take tl).filter
      (fun q => !(decide (q.op = OpCode.LABEL)))).length ≤
      (qs.filter (fun q => !(decide (q.op = OpCode.LABEL)))).length :=
    ((List.take_sublist tl qs).filter _).length_le
  rw [finalCount_eq]
  unfold SnapA.labelsBefore
  omega

theorem recompute_length (qs : List Quadruple) :
    (SnapA.recompute_jump_targets qs).length = SnapA.finalCount qs := by
  unfold SnapA.recompute_jump_targets
  rw [List.filter_map, List.length_map]
  have hcong : List.filter
      ((fun q => !(decide (q.op = OpCode.LABEL))) ∘ SnapA.retargetQuad qs) qs =
      List.filter (fun q => !(decide (q.op = OpCode.LABEL))) qs :=
    List.filter_congr (fun x _ => by
      simp [Function.comp, retargetQuad_op])
  rw [hcong, finalCount_eq]

/-- C4: after `recompute_jump_targets` the sequence contains no `LABEL`
instruction; every surviving jump's `result.index` is an ordinal in
`[0, len]` of the label-free sequence (`len` = its length, "one past the
end" allowed); and a jump whose label id has no `LABEL` line is retargeted
to exactly `len`. -/
theorem recompute_jump_targets_sound (qs : List Quadruple) :
    (∀ q ∈ SnapA.recompute_jump_targets qs, q.op ≠ OpCode.LABEL) ∧
    (∀ q ∈ SnapA.recompute_jump_targets qs, SnapA.is_jump_op q.op = true →
      0 ≤ q.result.index ∧
      q.result.index ≤ ((SnapA.recompute_jump_targets qs).length : Int)) ∧
    (∀ q ∈ qs, SnapA.is_jump_op q.op = true →
      SnapA.labelLine qs q.result.index = none →
      (SnapA.retargetQuad qs q).result.index =
        ((SnapA.recompute_jump_targets qs).length : Int)) := by
  refine ⟨?_, ?_, ?_⟩
  · intro q hq
    unfold SnapA.recompute_jump_targets at hq
    obtain ⟨_, hb⟩ := List.mem_filter.mp hq
    simpa using hb
  · intro q hq hj
    unfold SnapA.recompute_jump_targets at hq
    obtain ⟨hmem, _⟩ := List.mem_filter.mp hq
    obtain ⟨q0, hq0, rfl⟩ := List.mem_map.mp hmem
    rw [recompute_length]
    have hj0 : SnapA.is_jump_op q0.op = true := by
      rw [retargetQuad_op] at hj; exact hj
    unfold SnapA.retargetQuad
    rw [if_pos hj0]
    cases hL : SnapA.labelLine qs q0.result.index with
    | some tl =>
      obtain ⟨hlt, _⟩ := labelLine_spec qs q0.result.index tl hL
      have := final_target_le qs tl hlt
      simp only []
      constructor
      · positivity
      · exact_mod_cast this
    | none =>
      simp only []
      constructor
      · positivity
      · exact le_refl _
  · intro q hq hj hL
    rw [recompute_length]
    unfold SnapA.retargetQuad
    rw [if_pos hj, hL]

/-- Witness for C4 on `exJumps` (`JPF → missing label 7; LABEL L0; x := 1;
JMP → L0`): the surviving `JPF` carries an in-bounds ordinal, and the jump
with the unresolvable label id 7 is retargeted to exactly the label-free
length 3. -/
theorem recompute_jump_targets_sound_witness :
    (0 ≤ ((⟨OpCode.JPF, ⟨OperandType.TEMPORARY, -1, "t0"⟩, Operand.empty,
        ⟨OperandType.LABEL, 3, "3"⟩⟩ : Quadruple)).result.index ∧
      ((⟨OpCode.JPF, ⟨OperandType.TEMPORARY, -1, "t0"⟩, Operand.empty,
        ⟨OperandType.LABEL, 3, "3"⟩⟩ : Quadruple)).result.index ≤
        ((SnapA.recompute_jump_targets exJumps).length : Int)) ∧
    (SnapA.retargetQuad exJumps (exJumps.getD 0 default)).result.index =
      ((SnapA.recompute_jump_targets exJumps).length : Int) :=
  ⟨(recompute_jump_targets_sound exJumps).2.1
      ⟨OpCode.JPF, ⟨OperandType.TEMPORARY, -1, "t0"⟩, Operand.empty,
        ⟨OperandType.LABEL, 3, "3"⟩⟩ (by decide) (by decide),
    (recompute_jump_targets_sound exJumps).2.2 (exJumps.getD 0 default)
      (by decide) (by decide) (by decide)⟩

namespace SnapA

theorem getD_set_self {α : Type} (l : List α) (k : ℕ) (d : α) :
    l.set k (l.getD k d) = l := by
  by_cases h : k < l.length
  · apply List.ext_getElem?
    intro n
    by_cases hn : n = k
    · subst hn
      rw [List.getElem?_set_self h, List.getD_eq_getElem?_getD,
        List.getElem?_eq_getElem h]
      rfl
    · rw [List.getElem?_set_ne (fun he => hn he.symm)]
  · rw [List.set_eq_of_length_le (by omega)]

theorem lIn_set_eq (st : LState) (k : ℕ) (p : Finset String × Finset String)
    (h : k < st.length) : lIn (st.set k p) k = p.1 := by
  unfold lIn
  rw [List.getD_eq_getElem?_getD, List.getElem?_set_self h]
  rfl

theorem lOut_set_eq (st : LState) (k : ℕ) (p : Finset String × Finset String)
    (h : k < st.length) : lOut (st.set k p) k = p.2 := by
  unfold lOut
  rw [List.getD_eq_getElem?_getD, List.getElem?_set_self h]
  rfl

theorem lIn_set_ne (st : LState) (j k : ℕ) (p : Finset String × Finset String)
    (h : j ≠ k) : lIn (st.set k p) j = lIn st j := by
  unfold lIn
  rw [List.getD_eq_getElem?_getD, List.getElem?_set_ne (fun he => h he.symm),
    List.getD_eq_getElem?_getD]

theorem lOut_set_ne (st : LState) (j k : ℕ) (p : Finset String × Finset String)
    (h : j ≠ k) : lOut (st.set k p) j = lOut st j := by
  unfold lOut
  rw [List.getD_eq_getElem?_getD, List.getElem?_set_ne (fun he => h he.symm),
    List.getD_eq_getElem?_getD]

theorem getD_pair (st : LState) (k : ℕ) :
    st.getD k (∅, ∅) = (lIn st k, lOut st k) := rfl

end SnapA

namespace SnapA

theorem sweepAux_length (bs : List BInfo) :
    ∀ (ks : List ℕ) (st : LState) (c : Bool),
      ((ks.foldl (sweepStep bs) (st, c)).1).length = st.length := by
  intro ks
  induction ks with
  | nil => intro st c; rfl
  | cons k ks ih =>
    intro st c
    simp only [List.foldl_cons]
    rw [ih]
    simp [sweepStep]

theorem sweepAux_true (bs : List BInfo) :
    ∀ (ks : List ℕ) (st : LState),
      ((ks.foldl (sweepStep bs) (st, true)).2) = true := by
  intro ks
  induction ks with
  | nil => intro st; rfl
  | cons k ks ih =>
    intro st
    simp only [List.foldl_cons, sweepStep, Bool.true_or]
    exact ih _

theorem sweepAux_noRetouch (bs : List BInfo) :
    ∀ (ks : List ℕ) (st : LState) (c : Bool) (k : ℕ), k ∉ ks →
      ((ks.foldl (sweepStep bs) (st, c)).1).getD k (∅, ∅) = st.getD k (∅, ∅) := by
  intro ks
  induction ks with
  | nil => intro st c k _; rfl
  | cons k2 ks ih =>
    intro st c k hk
    simp only [List.foldl_cons]
    rw [ih _ _ k (fun h => hk (List.mem_cons_of_mem k2 h))]
    simp only [sweepStep]
    rw [List.getD_eq_getElem?_getD,
      List.getElem?_set_ne
        (by intro he; exact hk (by rw [← he]; exact List.mem_cons_self k2 ks)),
      List.getD_eq_getElem?_getD]

theorem sweepStep_snd (bs : List BInfo) (st : LState) (c : Bool) (k : ℕ) :
    (sweepStep bs (st, c) k).2 =
      (c || !(decide (newIn bs st k = lIn st k ∧ newOut bs st k = lOut st k))) :=
  rfl

theorem sweepStep_fst (bs : List BInfo) (st : LState) (c : Bool) (k : ℕ) :
    (sweepStep bs (st, c) k).1 = st.set k (newIn bs st k, newOut bs st k) :=
  rfl

theorem sweepAux_nochange (bs : List BInfo) :
    ∀ (ks : List ℕ) (st : LState),
      (ks.foldl (sweepStep bs) (st, false)).2 = false →
      (ks.foldl (sweepStep bs) (st, false)).1 = st ∧
      ∀ k ∈ ks, lIn st k = newIn bs st k ∧ lOut st k = newOut bs st k := by
  intro ks
  induction ks with
  | nil => intro st _; exact ⟨rfl, by simp⟩
  | cons k ks ih =>
    intro st h
    simp only [List.foldl_cons] at h ⊢
    rcases hp : sweepStep bs (st, false) k with ⟨st1, c1⟩
    cases c1 with
    | true =>
      rw [hp] at h
      rw [sweepAux_true] at h
      simp at h
    | false =>
      rw [hp] at h
      have hp2 := hp
      rw [show sweepStep bs (st, false) k =
          (st.set k (newIn bs st k, newOut bs st k),
            false ||
              !(decide (newIn bs st k = lIn st k ∧ newOut bs st k = lOut st k)))
          from rfl, Prod.mk.injEq] at hp2
      obtain ⟨hfst, hsnd⟩ := hp2
      simp only [Bool.false_or] at hsnd
      have hP : newIn bs st k = lIn st k ∧ newOut bs st k = lOut st k := by
        cases hd : decide (newIn bs st k = lIn st k ∧ newOut bs st k = lOut st k) with
        | true => exact of_decide_eq_true hd
        | false => rw [hd] at hsnd; simp at hsnd
      have hst1 : st1 = st := by
        rw [← hfst, hP.1, hP.2, ← getD_pair, getD_set_self]
      rw [hst1] at h ⊢
      obtain ⟨ha, hb⟩ := ih st h
      refine ⟨ha, ?_⟩
      intro k2 hk2
      rcases List.mem_cons.mp hk2 with rfl | hm
      · exact ⟨hP.1.symm, hP.2.symm⟩
      · exact hb k2 hm


theorem sweepAux_changed_ne (bs : List BInfo) :
    ∀ (ks : List ℕ) (st : LState), ks.Nodup → (∀ k ∈ ks, k < st.length) →
      (ks.foldl (sweepStep bs) (st, false)).2 = true →
      (ks.foldl (sweepStep bs) (st, false)).1 ≠ st := by
  intro ks
  induction ks with
  | nil => intro st _ _ h; simp at h
  | cons k ks ih =>
    intro st hnd hlen h
    simp only [List.foldl_cons] at h ⊢
    rcases hp : sweepStep bs (st, false) k with ⟨st1, c1⟩
    rw [hp] at h
    have hp2 := hp
    rw [show sweepStep bs (st, false) k =
        (st.set k (newIn bs st k, newOut bs st k),
          false ||
            !(decide (newIn bs st k = lIn st k ∧ newOut bs st k = lOut st k)))
        from rfl, Prod.mk.injEq] at hp2
    obtain ⟨hfst, hsnd⟩ := hp2
    simp only [Bool.false_or] at hsnd
    cases c1 with
    | false =>
      have hP : newIn bs st k = lIn st k ∧ newOut bs st k = lOut st k := by
        cases hd : decide (newIn bs st k = lIn st k ∧ newOut bs st k = lOut st k) with
        | true => exact of_decide_eq_true hd
        | false => rw [hd] at hsnd; simp at hsnd
      have hst1 : st1 = st := by
        rw [← hfst, hP.1, hP.2, ← getD_pair, getD_set_self]
      rw [hst1] at h ⊢
      exact ih st (List.Nodup.of_cons hnd)
        (fun k2 hk2 => hlen k2 (List.mem_cons_of_mem k hk2)) h
    | true =>
      -- the values at k changed; later steps do not touch index k
      have hP : ¬(newIn bs st k = lIn st k ∧ newOut bs st k = lOut st k) := by
        intro hcontra
        rw [decide_eq_true hcontra] at hsnd
        simp at hsnd
      intro hfinal
      have hkn : k ∉ ks := (List.nodup_cons.mp hnd).1
      have hgd := sweepAux_noRetouch bs ks st1 true k hkn
      rw [hfinal] at hgd
      -- hgd : st.getD k = st1.getD k
      have hk : k < st.length := hlen k (List.mem_cons_self k ks)
      have hv : st1.getD k (∅, ∅) = (newIn bs st k, newOut bs st k) := by
        rw [← hfst, List.getD_eq_getElem?_getD, List.getElem?_set_self hk]
        rfl
      rw [hv, getD_pair] at hgd
      exact hP ⟨(congrArg Prod.fst hgd).symm, (congrArg Prod.snd hgd).symm⟩


theorem stLE_refl (st : LState) : stLE st st :=
  fun _ => ⟨le_refl _, le_refl _⟩

theorem newOut_mono (bs : List BInfo) {st st2 : LState} (h : stLE st st2) (k : ℕ) :
    newOut bs st k ⊆ newOut bs st2 k :=
  Finset.biUnion_mono (fun j _ => (h j).1)

theorem newIn_mono (bs : List BInfo) {st st2 : LState} (h : stLE st st2) (k : ℕ) :
    newIn bs st k ⊆ newIn bs st2 k :=
  Finset.union_subset_union (le_refl _)
    (Finset.sdiff_subset_sdiff (newOut_mono bs h k) (le_refl _))

theorem stLE_set {st st2 : LState} (h : stLE st st2)
    (hlen : st.length = st2.length) (k : ℕ)
    (p p2 : Finset String × Finset String) (hp1 : p.1 ⊆ p2.1) (hp2 : p.2 ⊆ p2.2) :
    stLE (st.set k p) (st2.set k p2) := by
  intro j
  by_cases hj : j = k
  · subst hj
    by_cases hlt : j < st.length
    · rw [lIn_set_eq _ _ _ hlt, lOut_set_eq _ _ _ hlt,
        lIn_set_eq _ _ _ (by omega), lOut_set_eq _ _ _ (by omega)]
      exact ⟨hp1, hp2⟩
    · rw [List.set_eq_of_length_le (le_of_not_lt hlt),
        List.set_eq_of_length_le (by omega)]
      exact h j
  · rw [lIn_set_ne _ _ _ _ hj, lOut_set_ne _ _ _ _ hj,
      lIn_set_ne _ _ _ _ hj, lOut_set_ne _ _ _ _ hj]
    exact h j


/-- Gauss–Seidel monotonicity: running the same index list over pointwise
larger state yields pointwise larger state. -/
theorem sweepAux_mono (bs : List BInfo) :
    ∀ (ks : List ℕ) (st st2 : LState) (c c2 : Bool),
      stLE st st2 → st.length = st2.length →
      stLE (ks.foldl (sweepStep bs) (st, c)).1 (ks.foldl (sweepStep bs) (st2, c2)).1 := by
  intro ks
  induction ks with
  | nil => intro st st2 c c2 h _; exact h
  | cons k ks ih =>
    intro st st2 c c2 h hlen
    simp only [List.foldl_cons]
    have hstep : stLE (sweepStep bs (st, c) k).1 (sweepStep bs (st2, c2) k).1 := by
      rw [sweepStep_fst, sweepStep_fst]
      exact stLE_set h hlen k _ _ (newIn_mono bs h k) (newOut_mono bs h k)
    have hlen2 : ((sweepStep bs (st, c) k).1).length =
        ((sweepStep bs (st2, c2) k).1).length := by
      rw [sweepStep_fst, sweepStep_fst, List.length_set, List.length_set]
      exact hlen
    rcases hp : sweepStep bs (st, c) k with ⟨sa, ca⟩
    rcases hp2 : sweepStep bs (st2, c2) k with ⟨sb, cb⟩
    rw [hp, hp2] at hstep hlen2
    exact ih sa sb ca cb hstep hlen2

/-- One sweep from below stays below the next sweep (chain invariant). -/
theorem sweep_infl_step (bs : List BInfo) (st : LState)
    (h : stLE st (sweep bs st).1) (hlen : st.length = bs.length) :
    stLE (sweep bs st).1 (sweep bs (sweep bs st).1).1 := by
  have hl : st.length = ((sweep bs st).1).length :=
    (sweepAux_length bs (List.range bs.length) st false).symm
  unfold sweep
  exact sweepAux_mono bs (List.range bs.length) st (sweep bs st).1 false false h hl


theorem stLE_cons {a b : Finset String × Finset String} {s t : LState}
    (h : stLE (a :: s) (b :: t)) :
    (a.1 ⊆ b.1 ∧ a.2 ⊆ b.2) ∧ stLE s t := by
  constructor
  · exact h 0
  · intro k
    exact h (k + 1)

theorem lsize_cons (p : Finset String × Finset String) (s : LState) :
    lsize (p :: s) = (p.1.card + p.2.card) + lsize s := by
  simp [lsize]

theorem lsize_le : ∀ (s t : LState), stLE s t → s.length = t.length →
    lsize s ≤ lsize t := by
  intro s
  induction s with
  | nil => intro t _ hlen; cases t with
    | nil => exact le_refl _
    | cons b t => simp at hlen
  | cons a s ih =>
    intro t h hlen
    cases t with
    | nil => simp at hlen
    | cons b t =>
      obtain ⟨⟨h1, h2⟩, hs⟩ := stLE_cons h
      rw [lsize_cons, lsize_cons]
      have := ih t hs (by simpa using hlen)
      have c1 := Finset.card_le_card h1
      have c2 := Finset.card_le_card h2
      omega

theorem lsize_lt : ∀ (s t : LState), stLE s t → s.length = t.length →
    s ≠ t → lsize s < lsize t := by
  intro s
  induction s with
  | nil => intro t _ hlen hne; cases t with
    | nil => exact absurd rfl hne
    | cons b t => simp at hlen
  | cons a s ih =>
    intro t h hlen hne
    cases t with
    | nil => simp at hlen
    | cons b t =>
      obtain ⟨⟨h1, h2⟩, hs⟩ := stLE_cons h
      rw [lsize_cons, lsize_cons]
      by_cases hab : a = b
      · subst hab
        have hst : s ≠ t := by
          intro he; exact hne (by rw [he])
        have := ih t hs (by simpa using hlen) hst
        omega
      · have hcomp : a.1 ≠ b.1 ∨ a.2 ≠ b.2 := by
          by_contra hc
          push_neg at hc
          exact hab (Prod.ext hc.1 hc.2)
        have hts := lsize_le s t hs (by simpa using hlen)
        rcases hcomp with hc | hc
        · have := Finset.card_lt_card (Finset.ssubset_iff_subset_ne.mpr ⟨h1, hc⟩)
          have c2 := Finset.card_le_card h2
          omega
        · have := Finset.card_lt_card (Finset.ssubset_iff_subset_ne.mpr ⟨h2, hc⟩)
          have c1 := Finset.card_le_card h1
          omega


theorem livefold_acc_subset :
    ∀ (bs : List BInfo) (acc : Finset String),
      acc ⊆ bs.foldl (fun a b => a ∪ b.useS ∪ b.defS) acc := by
  intro bs
  induction bs with
  | nil => intro acc; exact Finset.Subset.refl _
  | cons b bs ih =>
    intro acc
    simp only [List.foldl_cons]
    exact Finset.Subset.trans
      (Finset.Subset.trans Finset.subset_union_left Finset.subset_union_left)
      (ih (acc ∪ b.useS ∪ b.defS))

theorem livefold_mem :
    ∀ (bs : List BInfo) (acc : Finset String) (b : BInfo), b ∈ bs →
      b.useS ⊆ bs.foldl (fun a b => a ∪ b.useS ∪ b.defS) acc ∧
      b.defS ⊆ bs.foldl (fun a b => a ∪ b.useS ∪ b.defS) acc := by
  intro bs
  induction bs with
  | nil => intro acc b hb; cases hb
  | cons b2 bs ih =>
    intro acc b hb
    simp only [List.foldl_cons]
    rcases List.mem_cons.mp hb with rfl | hm
    · constructor
      · exact Finset.Subset.trans
          (Finset.Subset.trans Finset.subset_union_right Finset.subset_union_left)
          (livefold_acc_subset bs _)
      · exact Finset.Subset.trans Finset.subset_union_right
          (livefold_acc_subset bs _)
    · exact ih _ b hm

theorem binfo_use_subset (bs : List BInfo) (k : ℕ) :
    (bs.getD k ⟨∅, ∅, ∅⟩).useS ⊆ liveUniverse bs ∧
    (bs.getD k ⟨∅, ∅, ∅⟩).defS ⊆ liveUniverse bs := by
  by_cases h : k < bs.length
  · have hmem : bs.getD k ⟨∅, ∅, ∅⟩ ∈ bs := by
      rw [List.getD_eq_getElem?_getD, List.getElem?_eq_getElem h]
      exact List.getElem_mem h
    exact livefold_mem bs ∅ _ hmem
  · rw [List.getD_eq_getElem?_getD, List.getElem?_eq_none (by omega)]
    exact ⟨Finset.empty_subset _, Finset.empty_subset _⟩

theorem newOut_inU (bs : List BInfo) (st : LState) (h : stInU bs st) (k : ℕ) :
    newOut bs st k ⊆ liveUniverse bs := by
  unfold newOut
  rw [Finset.biUnion_subset]
  intro j _
  exact (h j).1

theorem newIn_inU (bs : List BInfo) (st : LState) (h : stInU bs st) (k : ℕ) :
    newIn bs st k ⊆ liveUniverse bs := by
  unfold newIn
  refine Finset.union_subset (binfo_use_subset bs k).1 ?_
  exact fun x hx => newOut_inU bs st h k (Finset.sdiff_subset hx)

theorem stInU_set (bs : List BInfo) (st : LState) (h : stInU bs st) (k : ℕ)
    (p : Finset String × Finset String)
    (hp1 : p.1 ⊆ liveUniverse bs) (hp2 : p.2 ⊆ liveUniverse bs) :
    stInU bs (st.set k p) := by
  intro j
  by_cases hj : j = k
  · subst hj
    by_cases hlt : j < st.length
    · rw [lIn_set_eq _ _ _ hlt, lOut_set_eq _ _ _ hlt]
      exact ⟨hp1, hp2⟩
    · rw [List.set_eq_of_length_le (le_of_not_lt hlt)]
      exact h j
  · rw [lIn_set_ne _ _ _ _ hj, lOut_set_ne _ _ _ _ hj]
    exact h j

theorem sweepAux_inU (bs : List BInfo) :
    ∀ (ks : List ℕ) (st : LState) (c : Bool), stInU bs st →
      stInU bs (ks.foldl (sweepStep bs) (st, c)).1 := by
  intro ks
  induction ks with
  | nil => intro st c h; exact h
  | cons k ks ih =>
    intro st c h
    simp only [List.foldl_cons]
    rcases hp : sweepStep bs (st, c) k with ⟨st1, c1⟩
    have hst1 : st1 = st.set k (newIn bs st k, newOut bs st k) := by
      have := congrArg Prod.fst hp
      rw [sweepStep_fst] at this
      exact this.symm
    have : stInU bs st1 := by
      rw [hst1]
      exact stInU_set bs st h k _ (newIn_inU bs st h k) (newOut_inU bs st h k)
    exact ih st1 c1 this

theorem stInU_cons (bs : List BInfo) (p : Finset String × Finset String)
    (s : LState) (h : stInU bs (p :: s)) :
    (p.1 ⊆ liveUniverse bs ∧ p.2 ⊆ liveUniverse bs) ∧ stInU bs s := by
  constructor
  · exact h 0
  · intro k; exact h (k + 1)

theorem lsize_bound (bs : List BInfo) :
    ∀ (st : LState), stInU bs st →
      lsize st ≤ st.length * (2 * (liveUniverse bs).card) := by
  intro st
  induction st with
  | nil => intro _; simp [lsize]
  | cons p s ih =>
    intro h
    obtain ⟨⟨h1, h2⟩, hs⟩ := stInU_cons bs p s h
    rw [lsize_cons]
    have c1 := Finset.card_le_card h1
    have c2 := Finset.card_le_card h2
    have := ih hs
    simp only [List.length_cons]
    have hmul : (s.length + 1) * (2 * (liveUniverse bs).card) =
        s.length * (2 * (liveUniverse bs).card) + 2 * (liveUniverse bs).card := by
      ring
    omega


theorem sweep_length (bs : List BInfo) (st : LState) :
    ((sweep bs st).1).length = st.length :=
  sweepAux_length bs (List.range bs.length) st false

theorem sweep_nochange (bs : List BInfo) (st : LState)
    (h : (sweep bs st).2 = false) :
    (sweep bs st).1 = st ∧
    ∀ k, k < bs.length → lIn st k = newIn bs st k ∧ lOut st k = newOut bs st k := by
  obtain ⟨h1, h2⟩ := sweepAux_nochange bs (List.range bs.length) st h
  exact ⟨h1, fun k hk => h2 k (List.mem_range.mpr hk)⟩

theorem sweep_changed_ne (bs : List BInfo) (st : LState)
    (hlen : st.length = bs.length) (h : (sweep bs st).2 = true) :
    (sweep bs st).1 ≠ st :=
  sweepAux_changed_ne bs (List.range bs.length) st (List.nodup_range bs.length)
    (fun k hk => by rw [hlen]; exact List.mem_range.mp hk) h

theorem sweep_inU (bs : List BInfo) (st : LState) (h : stInU bs st) :
    stInU bs (sweep bs st).1 :=
  sweepAux_inU bs (List.range bs.length) st false h

theorem liveRun_fix (bs : List BInfo) :
    ∀ (fuel : ℕ) (st : LState),
      st.length = bs.length →
      stInU bs st →
      stLE st (sweep bs st).1 →
      bs.length * (2 * (liveUniverse bs).card) + 1 ≤ lsize st + fuel →
      sweep bs (liveRun bs fuel st) = (liveRun bs fuel st, false) := by
  intro fuel
  induction fuel with
  | zero =>
    intro st hlen hU _ hbound
    exfalso
    have := lsize_bound bs st hU
    rw [hlen] at this
    omega
  | succ fuel ih =>
    intro st hlen hU hinfl hbound
    rcases hp : sweep bs st with ⟨st1, c1⟩
    have hfst : (sweep bs st).1 = st1 := by rw [hp]
    have hsnd : (sweep bs st).2 = c1 := by rw [hp]
    cases c1 with
    | false =>
      have hrun : liveRun bs (fuel + 1) st = st1 := by
        simp [liveRun, hp]
      obtain ⟨hconv, _⟩ := sweep_nochange bs st hsnd
      have hst1 : st1 = st := by rw [← hfst]; exact hconv
      rw [hrun, hst1, hp, hst1]
    | true =>
      have hrun : liveRun bs (fuel + 1) st = liveRun bs fuel st1 := by
        simp [liveRun, hp]
      rw [hrun]
      have hlen1 : st1.length = bs.length := by
        rw [← hfst, sweep_length]; exact hlen
      have hU1 : stInU bs st1 := by rw [← hfst]; exact sweep_inU bs st hU
      have hle : stLE st st1 := by rw [← hfst]; exact hinfl
      have hinfl1 : stLE st1 (sweep bs st1).1 := by
        rw [← hfst]
        exact sweep_infl_step bs st hinfl hlen
      have hne : st1 ≠ st := by
        rw [← hfst]
        exact sweep_changed_ne bs st hlen hsnd
      have hsize : lsize st < lsize st1 :=
        lsize_lt st st1 hle (by omega) (fun he => hne he.symm)
      exact ih st1 hlen1 hU1 hinfl1 (by omega)

theorem initLState_length (n : ℕ) : (initLState n).length = n := by
  simp [initLState]

theorem initLState_bot (n : ℕ) (st : LState) : stLE (initLState n) st := by
  intro k
  constructor <;>
  · simp only [lIn, lOut, initLState]
    by_cases hk : k < n
    · rw [List.getD_eq_getElem?_getD, List.getElem?_eq_getElem (by simpa using hk)]
      simp
    · rw [List.getD_eq_getElem?_getD, List.getElem?_eq_none (by simpa using hk)]
      simp

theorem initLState_inU (bs : List BInfo) (n : ℕ) : stInU bs (initLState n) := by
  intro k
  constructor <;>
  · simp only [lIn, lOut, initLState]
    by_cases hk : k < n
    · rw [List.getD_eq_getElem?_getD, List.getElem?_eq_getElem (by simpa using hk)]
      simp
    · rw [List.getD_eq_getElem?_getD, List.getElem?_eq_none (by simpa using hk)]
      simp

/-- The do-while loop of `compute_live_variables` reaches its fixed point
within the provided fuel: one more full sweep leaves every set unchanged. -/
theorem computeLiveState_fix (bs : List BInfo) :
    sweep bs (computeLiveState bs) = (computeLiveState bs, false) := by
  unfold computeLiveState liveFuel
  apply liveRun_fix bs _ _ (initLState_length bs.length) (initLState_inU bs _)
    (initLState_bot bs.length _)
  have h0 : lsize (initLState bs.length) = 0 := by
    unfold initLState lsize
    induction bs.length with
    | zero => rfl
    | succ n ihn => simpa using ihn
  have hr : 2 * bs.length * (liveUniverse bs).card =
      bs.length * (2 * (liveUniverse bs).card) := by ring
  omega

theorem duStep_use_mem (u d : Finset String) (q : Quadruple) (x : String) :
    x ∈ (duStep (u, d) q).1 ↔ x ∈ u ∨ (readsName q x ∧ x ∉ d) := by
  unfold readsName
  by_cases h1 : q.arg1.isVar = true ∧ q.arg1.name ∉ d
  · by_cases h2 : q.arg2.isVar = true ∧ q.arg2.name ∉ d
    · simp only [duStep, if_pos h1, if_pos h2, Finset.mem_insert]
      constructor
      · rintro (hx | hx | hx)
        · exact Or.inr ⟨Or.inr ⟨h2.1, hx.symm⟩, by rw [hx]; exact h2.2⟩
        · exact Or.inr ⟨Or.inl ⟨h1.1, hx.symm⟩, by rw [hx]; exact h1.2⟩
        · exact Or.inl hx
      · rintro (hx | ⟨⟨hv, hn⟩ | ⟨hv, hn⟩, hd⟩)
        · exact Or.inr (Or.inr hx)
        · exact Or.inr (Or.inl hn.symm)
        · exact Or.inl hn.symm
    · simp only [duStep, if_pos h1, if_neg h2, Finset.mem_insert]
      constructor
      · rintro (hx | hx)
        · exact Or.inr ⟨Or.inl ⟨h1.1, hx.symm⟩, by rw [hx]; exact h1.2⟩
        · exact Or.inl hx
      · rintro (hx | ⟨⟨hv, hn⟩ | ⟨hv, hn⟩, hd⟩)
        · exact Or.inr hx
        · exact Or.inl hn.symm
        · exact absurd ⟨hv, by rw [hn]; exact hd⟩ h2
  · by_cases h2 : q.arg2.isVar = true ∧ q.arg2.name ∉ d
    · simp only [duStep, if_neg h1, if_pos h2, Finset.mem_insert]
      constructor
      · rintro (hx | hx)
        · exact Or.inr ⟨Or.inr ⟨h2.1, hx.symm⟩, by rw [hx]; exact h2.2⟩
        · exact Or.inl hx
      · rintro (hx | ⟨⟨hv, hn⟩ | ⟨hv, hn⟩, hd⟩)
        · exact Or.inr hx
        · exact absurd ⟨hv, by rw [hn]; exact hd⟩ h1
        · exact Or.inl hn.symm
    · simp only [duStep, if_neg h1, if_neg h2]
      constructor
      · intro hx; exact Or.inl hx
      · rintro (hx | ⟨⟨hv, hn⟩ | ⟨hv, hn⟩, hd⟩)
        · exact hx
        · exact absurd ⟨hv, by rw [hn]; exact hd⟩ h1
        · exact absurd ⟨hv, by rw [hn]; exact hd⟩ h2

theorem duStep_def_mem (u d : Finset String) (q : Quadruple) (x : String) :
    x ∈ (duStep (u, d) q).2 ↔ x ∈ d ∨ writesName q x := by
  by_cases hw : q.result.isVar = true
  · simp only [duStep, writesName, if_pos hw, Finset.mem_insert]
    constructor
    · rintro (hx | hx)
      · exact Or.inr ⟨hw, hx.symm⟩
      · exact Or.inl hx
    · rintro (hx | ⟨_, hn⟩)
      · exact Or.inr hx
      · exact Or.inl hn.symm
  · simp only [duStep, writesName, if_neg hw]
    constructor
    · intro hx; exact Or.inl hx
    · rintro (hx | ⟨hv, _⟩)
      · exact hx
      · exact absurd hv hw

theorem duFold_def_mem :
    ∀ (qs : List Quadruple) (u d : Finset String) (x : String),
      x ∈ (qs.foldl duStep (u, d)).2 ↔ x ∈ d ∨ ∃ q ∈ qs, writesName q x := by
  intro qs
  induction qs with
  | nil => intro u d x; simp
  | cons q rest ih =>
    intro u d x
    simp only [List.foldl_cons]
    rcases hp : duStep (u, d) q with ⟨u1, d1⟩
    have hd1 : ∀ y, y ∈ d1 ↔ y ∈ d ∨ writesName q y := by
      intro y
      have := duStep_def_mem u d q y
      rw [hp] at this
      exact this
    rw [ih u1 d1 x]
    constructor
    · rintro (hx | hex)
      · rcases (hd1 x).mp hx with hx2 | hx2
        · exact Or.inl hx2
        · exact Or.inr ⟨q, List.mem_cons_self q rest, hx2⟩
      · obtain ⟨q2, hq2, hw⟩ := hex
        exact Or.inr ⟨q2, List.mem_cons_of_mem q hq2, hw⟩
    · rintro (hx | ⟨q2, hq2, hw⟩)
      · exact Or.inl ((hd1 x).mpr (Or.inl hx))
      · rcases List.mem_cons.mp hq2 with rfl | hm
        · exact Or.inl ((hd1 x).mpr (Or.inr hw))
        · exact Or.inr ⟨q2, hm, hw⟩

theorem duFold_use_mem :
    ∀ (qs : List Quadruple) (u d : Finset String) (x : String),
      x ∈ (qs.foldl duStep (u, d)).1 ↔
        x ∈ u ∨ ∃ pre q post, qs = pre ++ q :: post ∧ readsName q x ∧ x ∉ d ∧
          ∀ p ∈ pre, ¬ writesName p x := by
  intro qs
  induction qs with
  | nil =>
    intro u d x
    simp only [List.foldl_nil]
    constructor
    · intro hx; exact Or.inl hx
    · rintro (hx | ⟨pre, q, post, heq, _⟩)
      · exact hx
      · exact absurd heq (by simp)
  | cons q rest ih =>
    intro u d x
    simp only [List.foldl_cons]
    rcases hp : duStep (u, d) q with ⟨u1, d1⟩
    have hu1 : ∀ y, y ∈ u1 ↔ y ∈ u ∨ (readsName q y ∧ y ∉ d) := by
      intro y
      have := duStep_use_mem u d q y
      rw [hp] at this
      exact this
    have hd1 : ∀ y, y ∈ d1 ↔ y ∈ d ∨ writesName q y := by
      intro y
      have := duStep_def_mem u d q y
      rw [hp] at this
      exact this
    rw [ih u1 d1 x]
    constructor
    · rintro (hx | ⟨pre, q2, post, heq, hr, hnd, hpre⟩)
      · rcases (hu1 x).mp hx with hx2 | ⟨hr, hnd⟩
        · exact Or.inl hx2
        · exact Or.inr ⟨[], q, rest, rfl, hr, hnd, by simp⟩
      · refine Or.inr ⟨q :: pre, q2, post, by rw [heq]; rfl, hr, ?_, ?_⟩
        · intro hxd
          exact hnd ((hd1 x).mpr (Or.inl hxd))
        · intro p hp2
          rcases List.mem_cons.mp hp2 with rfl | hm
          · intro hw
            exact hnd ((hd1 x).mpr (Or.inr hw))
          · exact hpre p hm
    · rintro (hx | ⟨pre, q2, post, heq, hr, hnd, hpre⟩)
      · exact Or.inl ((hu1 x).mpr (Or.inl hx))
      · cases pre with
        | nil =>
          simp only [List.nil_append] at heq
          obtain ⟨rfl, rfl⟩ := List.cons.inj heq
          exact Or.inl ((hu1 x).mpr (Or.inr ⟨hr, hnd⟩))
        | cons p0 pre2 =>
          simp only [List.cons_append] at heq
          obtain ⟨rfl, heq2⟩ := List.cons.inj heq
          refine Or.inr ⟨pre2, q2, post, heq2, hr, ?_, ?_⟩
          · intro hxd1
            rcases (hd1 x).mp hxd1 with hxd | hw
            · exact hnd hxd
            · exact hpre q (List.mem_cons_self q pre2) hw
          · intro p hp2
            exact hpre p (List.mem_cons_of_mem q hp2)

theorem range_map_getD {α : Type} (n k : ℕ) (f : ℕ → α) (d : α) (h : k < n) :
    ((List.range n).map f).getD k d = f k := by
  rw [List.getD_eq_getElem?_getD, List.getElem?_map, List.getElem?_range h]
  rfl

theorem map_getD {α β : Type} (l : List α) (f : α → β) (k : ℕ) (d : α) (d2 : β)
    (h : k < l.length) : (l.map f).getD k d2 = f (l.getD k d) := by
  rw [List.getD_eq_getElem?_getD, List.getElem?_map, List.getElem?_eq_getElem h,
    List.getD_eq_getElem?_getD, List.getElem?_eq_getElem h]
  rfl

theorem liveRun_length (bs : List BInfo) :
    ∀ (fuel : ℕ) (st : LState), (liveRun bs fuel st).length = st.length := by
  intro fuel
  induction fuel with
  | zero => intro st; rfl
  | succ fuel ih =>
    intro st
    simp only [liveRun]
    rcases hp : sweep bs st with ⟨st1, c1⟩
    have h1 : st1.length = st.length := by
      have := sweep_length bs st
      rw [hp] at this
      exact this
    cases c1 with
    | true => simpa using (ih st1).trans h1
    | false => simpa using h1

theorem computeLiveState_length (bs : List BInfo) :
    (computeLiveState bs).length = bs.length := by
  unfold computeLiveState
  rw [liveRun_length, initLState_length]

theorem cdu_length (bs : List BasicBlock) :
    (compute_def_use_sets bs).length = bs.length := by
  simp [compute_def_use_sets]

theorem clv_length (blocks : List BasicBlock) :
    (compute_live_variables blocks).length = blocks.length := by
  simp [compute_live_variables]

theorem cdu_getD (bs : List BasicBlock) (k : ℕ) (h : k < bs.length) :
    (compute_def_use_sets bs).getD k default =
      { bs.getD k default with
          useS := (computeDefUseQuads (bs.getD k default).quads).1
          defS := (computeDefUseQuads (bs.getD k default).quads).2 } := by
  unfold compute_def_use_sets
  rw [map_getD bs _ k default default h]

theorem clv_getD (blocks : List BasicBlock) (k : ℕ) (h : k < blocks.length) :
    (compute_live_variables blocks).getD k default =
      { blocks.getD k default with
          live_in := lIn (computeLiveState (blocks.map BasicBlock.info)) k
          live_out := lOut (computeLiveState (blocks.map BasicBlock.info)) k } := by
  simp only [compute_live_variables]
  rw [range_map_getD _ _ _ _ h]

theorem clv_live_in_eq (blocks : List BasicBlock) (j : ℕ) :
    ((compute_live_variables blocks).getD j default).live_in =
      lIn (computeLiveState (blocks.map BasicBlock.info)) j := by
  by_cases h : j < blocks.length
  · rw [clv_getD blocks j h]
  · have h1 : (compute_live_variables blocks).getD j default = default := by
      rw [List.getD_eq_getElem?_getD, List.getElem?_eq_none]
      · rfl
      · rw [clv_length]; omega
    have h2 : lIn (computeLiveState (blocks.map BasicBlock.info)) j = ∅ := by
      unfold lIn
      rw [List.getD_eq_getElem?_getD, List.getElem?_eq_none]
      · rfl
      · rw [computeLiveState_length, List.length_map]; omega
    rw [h1, h2]
    rfl

theorem map_info_getD (bs : List BasicBlock) (k : ℕ) (h : k < bs.length) :
    (bs.map BasicBlock.info).getD k ⟨∅, ∅, ∅⟩ =
      BasicBlock.info (bs.getD k default) :=
  map_getD bs BasicBlock.info k default ⟨∅, ∅, ∅⟩ h

end SnapA

/-- C6: `compute_live_variables` terminates on every finite list of basic
blocks — the provided fuel suffices, i.e. one more sweep of the do-while loop
at the returned state changes nothing and the loop's `changed` flag is
`false` — and on return every block satisfies the data-flow fixed-point
equations `live_out[B] = ⋃ live_in[S]` over the successors `S` of `B` and
`live_in[B] = use[B] ∪ (live_out[B] \ def[B])`, where `use[B]` contains
exactly the variable names read by some instruction of `B` with no earlier
instruction of `B` writing them, and `def[B]` contains exactly the names
written by some instruction of `B` (both as computed by
`compute_def_use_sets`, whose output the returned blocks carry unchanged). -/
theorem live_variables_fixed_point (blocks : List SnapA.BasicBlock) :
    (SnapA.sweep ((SnapA.compute_def_use_sets blocks).map SnapA.BasicBlock.info)
        (SnapA.computeLiveState
          ((SnapA.compute_def_use_sets blocks).map SnapA.BasicBlock.info)) =
      (SnapA.computeLiveState
        ((SnapA.compute_def_use_sets blocks).map SnapA.BasicBlock.info), false)) ∧
    (∀ k, k < blocks.length →
      ((SnapA.livenessAnalyze blocks).getD k default).live_out =
        ((SnapA.livenessAnalyze blocks).getD k default).successors.biUnion
          (fun j => ((SnapA.livenessAnalyze blocks).getD j default).live_in) ∧
      ((SnapA.livenessAnalyze blocks).getD k default).live_in =
        ((SnapA.livenessAnalyze blocks).getD k default).useS ∪
          (((SnapA.livenessAnalyze blocks).getD k default).live_out \
            ((SnapA.livenessAnalyze blocks).getD k default).defS)) ∧
    (∀ k, k < blocks.length → ∀ x : String,
      (x ∈ ((SnapA.livenessAnalyze blocks).getD k default).useS ↔
        ∃ pre q post, (blocks.getD k default).quads = pre ++ q :: post ∧
          readsName q x ∧ ∀ p ∈ pre, ¬ writesName p x) ∧
      (x ∈ ((SnapA.livenessAnalyze blocks).getD k default).defS ↔
        ∃ q ∈ (blocks.getD k default).quads, writesName q x)) := by
  refine ⟨SnapA.computeLiveState_fix _, ?_, ?_⟩
  · intro k hk
    have hlen := SnapA.cdu_length blocks
    have hk1 : k < (SnapA.compute_def_use_sets blocks).length := by omega
    have hfix := SnapA.computeLiveState_fix
      ((SnapA.compute_def_use_sets blocks).map SnapA.BasicBlock.info)
    have hnc := SnapA.sweep_nochange
      ((SnapA.compute_def_use_sets blocks).map SnapA.BasicBlock.info)
      (SnapA.computeLiveState
        ((SnapA.compute_def_use_sets blocks).map SnapA.BasicBlock.info))
      (by rw [hfix])
    have heqs := hnc.2 k (by rw [List.length_map]; exact hk1)
    have hgd := SnapA.clv_getD (SnapA.compute_def_use_sets blocks) k hk1
    have hinfo := SnapA.map_info_getD (SnapA.compute_def_use_sets blocks) k hk1
    have hout : ((SnapA.livenessAnalyze blocks).getD k default).live_out =
        SnapA.lOut (SnapA.computeLiveState
          ((SnapA.compute_def_use_sets blocks).map SnapA.BasicBlock.info)) k := by
      simp only [SnapA.livenessAnalyze]
      rw [hgd]
    have hin : ((SnapA.livenessAnalyze blocks).getD k default).live_in =
        SnapA.lIn (SnapA.computeLiveState
          ((SnapA.compute_def_use_sets blocks).map SnapA.BasicBlock.info)) k := by
      simp only [SnapA.livenessAnalyze]
      rw [hgd]
    have hsucc : ((SnapA.livenessAnalyze blocks).getD k default).successors =
        ((SnapA.compute_def_use_sets blocks).getD k default).successors := by
      simp only [SnapA.livenessAnalyze]
      rw [hgd]
    have huse : ((SnapA.livenessAnalyze blocks).getD k default).useS =
        ((SnapA.compute_def_use_sets blocks).getD k default).useS := by
      simp only [SnapA.livenessAnalyze]
      rw [hgd]
    have hdef : ((SnapA.livenessAnalyze blocks).getD k default).defS =
        ((SnapA.compute_def_use_sets blocks).getD k default).defS := by
      simp only [SnapA.livenessAnalyze]
      rw [hgd]
    constructor
    · rw [hout, hsucc]
      have hbi :
          ((SnapA.compute_def_use_sets blocks).getD k default).successors.biUnion
              (fun j => ((SnapA.livenessAnalyze blocks).getD j default).live_in) =
            ((SnapA.compute_def_use_sets blocks).getD k default).successors.biUnion
              (fun j => SnapA.lIn (SnapA.computeLiveState
                ((SnapA.compute_def_use_sets blocks).map SnapA.BasicBlock.info)) j) :=
        Finset.biUnion_congr rfl
          (fun j _ => SnapA.clv_live_in_eq (SnapA.compute_def_use_sets blocks) j)
      rw [hbi, heqs.2]
      unfold SnapA.newOut
      rw [hinfo]
      rfl
    · rw [hin, hout, huse, hdef, heqs.1, heqs.2]
      unfold SnapA.newIn
      rw [hinfo]
      rfl
  · intro k hk x
    have hlen := SnapA.cdu_length blocks
    have hk1 : k < (SnapA.compute_def_use_sets blocks).length := by omega
    have hgd := SnapA.clv_getD (SnapA.compute_def_use_sets blocks) k hk1
    have hcdu := SnapA.cdu_getD blocks k hk
    have huse : ((SnapA.livenessAnalyze blocks).getD k default).useS =
        (SnapA.computeDefUseQuads (blocks.getD k default).quads).1 := by
      simp only [SnapA.livenessAnalyze]
      rw [hgd, hcdu]
    have hdef : ((SnapA.livenessAnalyze blocks).getD k default).defS =
        (SnapA.computeDefUseQuads (blocks.getD k default).quads).2 := by
      simp only [SnapA.livenessAnalyze]
      rw [hgd, hcdu]
    constructor
    · rw [huse]
      have h := SnapA.duFold_use_mem (blocks.getD k default).quads ∅ ∅ x
      simpa [SnapA.computeDefUseQuads] using h
    · rw [hdef]
      have h := SnapA.duFold_def_mem (blocks.getD k default).quads ∅ ∅ x
      simpa [SnapA.computeDefUseQuads] using h

theorem live_variables_fixed_point_witness :
    0 < exLiveBlocks.length ∧
    (((SnapA.livenessAnalyze exLiveBlocks).getD 0 default).live_out =
        ((SnapA.livenessAnalyze exLiveBlocks).getD 0 default).successors.biUnion
          (fun j => ((SnapA.livenessAnalyze exLiveBlocks).getD j default).live_in) ∧
      ((SnapA.livenessAnalyze exLiveBlocks).getD 0 default).live_in =
        ((SnapA.livenessAnalyze exLiveBlocks).getD 0 default).useS ∪
          (((SnapA.livenessAnalyze exLiveBlocks).getD 0 default).live_out \
            ((SnapA.livenessAnalyze exLiveBlocks).getD 0 default).defS)) :=
  ⟨by decide, (live_variables_fixed_point exLiveBlocks).2.1 0 (by decide)⟩
